import Mathlib

/-!
A shallow embedding of the core layout and rasterization pipeline of
`bin/plotter.py` (an Oxford-grid dotplot renderer), together with theorems
about its behaviour.

Modelling conventions:
* Python integers are unbounded, so they are modelled with `Int` (or `Nat`
  where the source value is a count).
* Python floor division `//` and `divmod` are modelled with `Int.fdiv` and
  `Int.fmod`.
* `while True:` loops are modelled with an explicit fuel argument; the
  top-level callers pass an amply large fuel and the theorems show that it
  suffices on the stated inputs.
* Code paths on which Python would raise an exception are modelled with
  `Except`/`Option`, or (for container indexing such as `blocks[0]` on data
  that is nonempty in every real run) with `headI`/`getLastI` defaults that
  the theorems guard with nonemptiness hypotheses.
* Float arithmetic in `trimmed` (gap-fraction thresholds) is modelled with
  exact rationals.
-/

/-- A gapless alignment block `(beg1, beg2, size)`.  A negative `beg`
encodes reverse-strand coordinates of equal magnitude. -/
abbrev Block := Int × Int × Int

/-- An alignment `(seqName1, seqName2, blocks)`. -/
abbrev Aln := String × String × List Block

/-- A sequence range before strand assignment: `(seqName, beg, end)`. -/
abbrev SeqRange := String × Int × Int

/-- A sequence range with strand number: `(seqName, beg, end, strandNum)`.
`strandNum` is 0 (unspecified), 1 (forward) or 2 (reverse). -/
abbrev SeqRange4 := String × Int × Int × Nat

/-- Pixel placement data of one range: `(rangeBeg, rangeEnd, isReverseRange,
origin)`, as stored in the per-sequence range dictionaries. -/
abbrev RangeInfo := Int × Int × Bool × Int

/-- Select a sequence name of an alignment by axis index, the Python
`i[seqIndex]` for `seqIndex` 0 or 1. -/
def alnName (a : Aln) (seqIndex : Nat) : String :=
  if seqIndex = 0 then a.1 else a.2.1

/-- Select the coordinate of a block by axis index, the Python
`b[seqIndex]`. -/
def blockCoord (b : Block) (seqIndex : Nat) : Int :=
  if seqIndex = 0 then b.1 else b.2.1

/-- Split a character list at occurrences of a separator character. -/
def splitOnCharAux (c : Char) : List Char → List Char → List (List Char)
  | [], acc => [acc.reverse]
  | x :: xs, acc =>
    if x = c then acc.reverse :: splitOnCharAux c xs []
    else splitOnCharAux c xs (x :: acc)

/-- Python `text.split(sep)` for a one-character separator (the only kind
this program uses: ":" and ","). -/
def splitOnChar (c : Char) (s : String) : List String :=
  (splitOnCharAux c s.toList []).map String.mk

/-- Source `twoValuesFromOption`: split `text` at `separator` into two
values; if the separator is absent the text serves for both. -/
def twoValuesFromOption (text : String) (separator : Char) : String × String :=
  if (splitOnChar separator text).length > 1 then
    let p := splitOnChar separator text
    (p.getD 0 "", p.getD 1 "")
  else
    (text, text)

/-- Source `div_ceil`: `q, r = divmod(x, y); return q + (r != 0)`. -/
def div_ceil (x y : Int) : Int :=
  x.fdiv y + (if x.fmod y ≠ 0 then 1 else 0)

/-- The `while True:` search loop of `get_bp_per_pix`: return
`-negBpPerPix` as soon as the scaled sizes fit in `negLimit`, otherwise
decrement `negBpPerPix` (all arithmetic on negated values, as in the
source). -/
def bpPerPixLoop (rangeSizes : List Int) (negLimit : Int) :
    Int → Nat → Option Int
  | _, 0 => none
  | negBpPerPix, fuel + 1 =>
    if negLimit ≤ (rangeSizes.map (fun i => i.fdiv negBpPerPix)).sum then
      some (-negBpPerPix)
    else
      bpPerPixLoop rangeSizes negLimit (negBpPerPix - 1) fuel

/-- Source `get_bp_per_pix`: choose the minimum bases-per-pixel scale that
fits in the pixel budget, searching from a lower bound obtained by negated
floor division. -/
def get_bp_per_pix (rangeSizes : List Int) (pixTweenRanges maxPixels : Int) :
    Except String Int :=
  let numOfRanges : Int := rangeSizes.length
  let maxPixelsInRanges := maxPixels - pixTweenRanges * (numOfRanges - 1)
  if maxPixelsInRanges < numOfRanges then
    .error "cannot fit the image: too many sequences?"
  else
    let negLimit := -maxPixelsInRanges
    let negBpPerPix := rangeSizes.sum.fdiv negLimit
    match bpPerPixLoop rangeSizes negLimit negBpPerPix
        ((rangeSizes.sum).toNat + 2) with
    | some s => .ok s
    | none => .error "fuel exhausted"

/-- Source `getRangePixBegs`: start pixel of each range, separated by
`pixTweenRanges` border pixels, starting at `margin`. -/
def getRangePixBegs (rangePixLens : List Int) (pixTweenRanges margin : Int) :
    List Int :=
  (rangePixLens.foldl
    (fun (acc : List Int × Int) i =>
      let pix_tot := acc.2 + pixTweenRanges
      (acc.1 ++ [pix_tot], pix_tot + i))
    ([], margin - pixTweenRanges)).1

/-- Source `pixelData`: pixel lengths, pixel starts and total pixel count
of the ranges. -/
def pixelData (rangeSizes : List Int) (bp_per_pix pixTweenRanges margin : Int) :
    List Int × List Int × Int :=
  let rangePixLens := rangeSizes.map (fun i => div_ceil i bp_per_pix)
  let rangePixBegs := getRangePixBegs rangePixLens pixTweenRanges margin
  (rangePixBegs, rangePixLens,
    rangePixBegs.getLastI + rangePixLens.getLastI)

/-- Clip one block of `croppedBlocks` against the (already strand-adjusted)
crop window; `none` when the clipped block is empty, mirroring the two
`continue` statements of the source. -/
def cropOne (cropBeg1 cropEnd1 cropBeg2 cropEnd2 : Int) (b : Block) :
    Option Block :=
  let beg1 := b.1
  let beg2 := b.2.1
  let size := b.2.2
  let b1 := max cropBeg1 beg1
  let e1 := min cropEnd1 (beg1 + size)
  if b1 ≥ e1 then none
  else
    let offset := beg2 - beg1
    let b2 := max cropBeg2 (b1 + offset)
    let e2 := min cropEnd2 (e1 + offset)
    if b2 ≥ e2 then none
    else some (b2 - offset, b2, e2 - b2)

/-- Source `croppedBlocks`: for every pair of requested ranges, flip the
crop window for the strand signs of the first block, then clip every block
against the window. -/
def croppedBlocks (blocks : List Block) (ranges1 ranges2 : List (Int × Int)) :
    List Block :=
  let headBeg1 := blocks.headI.1
  let headBeg2 := blocks.headI.2.1
  ranges1.flatMap (fun r1 =>
    ranges2.flatMap (fun r2 =>
      let cropBeg1 := if headBeg1 < 0 then -r1.2 else r1.1
      let cropEnd1 := if headBeg1 < 0 then -r1.1 else r1.2
      let cropBeg2 := if headBeg2 < 0 then -r2.2 else r2.1
      let cropEnd2 := if headBeg2 < 0 then -r2.1 else r2.2
      blocks.filterMap (cropOne cropBeg1 cropEnd1 cropBeg2 cropEnd2)))

/-- The accumulation loop of source `mergedRanges`: `(oldBeg, maxEnd)` is
the interval being grown; a gap starts a new interval, otherwise the end is
extended. -/
def mergeLoop : Int → Int → List (Int × Int) → List (Int × Int)
  | oldBeg, maxEnd, [] => [(oldBeg, maxEnd)]
  | oldBeg, maxEnd, (beg, e) :: rest =>
    if maxEnd < beg then (oldBeg, maxEnd) :: mergeLoop beg e rest
    else if maxEnd < e then mergeLoop oldBeg e rest
    else mergeLoop oldBeg maxEnd rest

/-- Source `mergedRanges`: coalesce a sorted list of intervals.  The
source seeds the loop state with `ranges[0]` and then iterates over the
whole list (the first element is harmlessly compared with itself). -/
def mergedRanges (ranges : List (Int × Int)) : List (Int × Int) :=
  mergeLoop ranges.headI.1 ranges.headI.2 ranges

/-- The comparison used by Python `list.sort()` on `(beg, end)` pairs:
lexicographic order. -/
def pairLe (a b : Int × Int) : Bool :=
  decide (a.1 < b.1 ∨ (a.1 = b.1 ∧ a.2 ≤ b.2))

/-- Python `v.sort()` on interval pairs, as done by `mergedRangesPerSeq`
before calling `mergedRanges`. -/
def rangeSort (ranges : List (Int × Int)) : List (Int × Int) :=
  ranges.mergeSort pairLe

/-- Source `mergedRangesPerSeq` for a single sequence entry: sort the
coverage intervals, then merge them. -/
def mergedRangesPerSeqOne (v : List (Int × Int)) : List (Int × Int) :=
  mergedRanges (rangeSort v)

/-- The inner `for j, y in enumerate(blocks)` loop of source `trimmed`:
given the current `rangeBeg`, the previous block `x` and the remaining
blocks, return the mid-gap splits emitted so far together with the final
`rangeBeg`. -/
def midLoop (maxMidGap : ℚ) (midPad : Int) :
    Int → Int × Int → List (Int × Int) → List (Int × Int) × Int
  | rangeBeg, _, [] => ([], rangeBeg)
  | rangeBeg, x, y :: rest =>
    if maxMidGap < ((y.1 - x.2 : Int) : ℚ) then
      let out := midLoop maxMidGap midPad (y.1 - midPad) y rest
      ((rangeBeg, x.2 + midPad) :: out.1, out.2)
    else
      midLoop maxMidGap midPad rangeBeg y rest

/-- Source `trimmed` restricted to one `(seqName, rangeBeg, rangeEnd)`
entry of `seqRanges`.  The empty-overlap case, on which Python raises
`IndexError` at `blocks[0]`, returns `[]`. -/
def trimmedOne (maxEndGap maxMidGap : ℚ) (endPad midPad : Int)
    (seqBlocks : List (Int × Int)) (seqName : String)
    (rangeBeg rangeEnd : Int) : List SeqRange :=
  let blocks := seqBlocks.filter (fun i => decide (i.1 < rangeEnd ∧ rangeBeg < i.2))
  match blocks with
  | [] => []
  | b0 :: rest =>
    let rangeBeg :=
      if maxEndGap < ((b0.1 - rangeBeg : Int) : ℚ) then b0.1 - endPad
      else rangeBeg
    let out := midLoop maxMidGap midPad rangeBeg b0 rest
    let lastEnd := (b0 :: rest).getLastI.2
    let rangeEnd :=
      if maxEndGap < ((rangeEnd - lastEnd : Int) : ℚ) then lastEnd + endPad
      else rangeEnd
    (out.1.map (fun p => (seqName, p.1, p.2))) ++ [(seqName, out.2, rangeEnd)]

/-- Source `trimmed`: shrink range ends to the covered extent and split at
large internal gaps.  The float thresholds are modelled with exact
rationals. -/
def trimmed (seqRanges : List SeqRange)
    (coverDict : List (String × List (Int × Int))) (minAlignedBases : Int)
    (maxEndGapFrac maxMidGapFrac : ℚ) (endPad midPad : Int) :
    List SeqRange :=
  let maxEndGap := max (maxEndGapFrac * minAlignedBases) ((endPad : ℚ) * 1)
  let maxMidGap := max (maxMidGapFrac * minAlignedBases) ((midPad : ℚ) * 2)
  seqRanges.flatMap (fun r =>
    trimmedOne maxEndGap maxMidGap endPad midPad
      ((List.lookup r.1 coverDict).getD []) r.1 r.2.1 r.2.2)

/-- Add `v` to key `k` of an association list, inserting `0 + v` when the
key is absent: the behaviour of `collections.defaultdict(int)` under
`d[k] += v`. -/
def dictAdd : List (String × Int) → String → Int → List (String × Int)
  | [], k, v => [(k, v)]
  | (k', v') :: rest, k, v =>
    if k' = k then (k', v' + v) :: rest else (k', v') :: dictAdd rest k v

/-- Lookup with the `defaultdict(int)` default 0. -/
def dictGetD (d : List (String × Int)) (k : String) : Int :=
  (List.lookup k d).getD 0

/-- The `forwardMinusReverse` accumulator of source
`rangesWithStrandInfo`: per sequence name, the sum of aligned-letter-pair
counts, negated for opposite-strand alignments. -/
def forwardMinusReverse (alignments : List Aln) (seqIndex : Nat) :
    List (String × Int) :=
  alignments.foldl
    (fun d i =>
      let blocks := i.2.2
      let b0 := blocks.headI
      let numOfAlignedLetterPairs := (blocks.map (fun b => b.2.2)).sum
      let numOfAlignedLetterPairs :=
        if decide (b0.1 < 0) ≠ decide (b0.2.1 < 0) then -numOfAlignedLetterPairs
        else numOfAlignedLetterPairs
      dictAdd d (alnName i seqIndex) numOfAlignedLetterPairs)
    []

/-- Source `rangesWithStrandInfo`: with strand option "1", orient each
sequence by the sign of its `forwardMinusReverse` total; otherwise leave
`strandNum` 0. -/
def rangesWithStrandInfo (seqRanges : List SeqRange) (strandOpt : String)
    (alignments : List Aln) (seqIndex : Nat) : List SeqRange4 :=
  let fmr := forwardMinusReverse alignments seqIndex
  seqRanges.map (fun r =>
    (r.1, r.2.1, r.2.2,
      if strandOpt = "1" then (if 0 ≤ dictGetD fmr r.1 then 1 else 2)
      else 0))

/-- Source `rangesWithOrigins`: zip the sorted ranges with their pixel
starts and pixel lengths, and give each an origin such that
`(origin + genomicPosition) // bpPerPix` is the pixel index. -/
def rangesWithOrigins :
    List SeqRange4 → List Int → List Int → Int → List (String × RangeInfo)
  | i :: is, j :: js, k :: ks, bpPerPix =>
    let isReverseRange := decide (1 < i.2.2.2)
    let origin :=
      if isReverseRange then bpPerPix * (j + k) + i.2.1
      else bpPerPix * j - i.2.1
    (i.1, (i.2.1, i.2.2.1, isReverseRange, origin)) ::
      rangesWithOrigins is js ks bpPerPix
  | _, _, _, _ => []

/-- Zip `rangesWithOrigins` output into a per-name list, the essence of
`rangesAndOriginsPerSeq` for a single sequence. -/
def lookupRanges (rangeDict : List (String × List RangeInfo)) (name : String) :
    Option (List RangeInfo) :=
  List.lookup name rangeDict

/-- Source `strandAndOrigin`: flip reverse-strand coordinates, then find
the first (sorted) range whose end exceeds the start position; `none` when
no range matches (Python would return `None` and the caller would crash
unpacking it). -/
def strandAndOrigin (ranges : List RangeInfo) (beg size : Int) :
    Option (Bool × Int) :=
  let isReverseStrand := decide (beg < 0)
  let beg := if isReverseStrand then -(beg + size) else beg
  (ranges.find? (fun r => decide (beg < r.2.1))).map
    (fun r => (isReverseStrand != r.2.2.1, r.2.2.2))

/-- One `|=` write into the grid list.  Python list indexing wraps one
round of negative indices and raises on anything else out of range; the
out-of-range case leaves the grid unchanged here (the theorems only use
in-range writes). -/
def listOrAt (hits : List Nat) (idx : Int) (v : Nat) : List Nat :=
  let n : Int := hits.length
  let j := if idx < 0 then idx + n else idx
  if 0 ≤ j ∧ j < n then
    hits.set j.toNat (hits.getD j.toNat 0 ||| v)
  else hits

/-- Source `drawLineForward`: walk a block, OR bit 0 into each touched
cell, and advance both coordinates by the minimum distance to the next
pixel boundary.  `fuel` bounds the `while True:` loop. -/
def drawLineForward (hits : List Nat) (width : Nat) (bp_per_pix : Int) :
    Int → Int → Int → Nat → List Nat
  | _, _, _, 0 => hits
  | beg1, beg2, size, fuel + 1 =>
    let q1 := beg1.fdiv bp_per_pix
    let r1 := beg1.fmod bp_per_pix
    let q2 := beg2.fdiv bp_per_pix
    let r2 := beg2.fmod bp_per_pix
    let hits := listOrAt hits (q2 * width + q1) 1
    let next_pix := min (bp_per_pix - r1) (bp_per_pix - r2)
    if size ≤ next_pix then hits
    else drawLineForward hits width bp_per_pix (beg1 + next_pix)
      (beg2 + next_pix) (size - next_pix) fuel

/-- Source `drawLineReverse`: as `drawLineForward` but OR bit 1, with the
second coordinate walking backwards. -/
def drawLineReverse (hits : List Nat) (width : Nat) (bp_per_pix : Int) :
    Int → Int → Int → Nat → List Nat
  | _, _, _, 0 => hits
  | beg1, beg2, size, fuel + 1 =>
    let q1 := beg1.fdiv bp_per_pix
    let r1 := beg1.fmod bp_per_pix
    let q2 := beg2.fdiv bp_per_pix
    let r2 := beg2.fmod bp_per_pix
    let hits := listOrAt hits (q2 * width + q1) 2
    let next_pix := min (bp_per_pix - r1) (r2 + 1)
    if size ≤ next_pix then hits
    else drawLineReverse hits width bp_per_pix (beg1 + next_pix)
      (beg2 - next_pix) (size - next_pix) fuel

/-- The cells `(q1, q2)` visited by `drawLineForward`, in visiting
order. -/
def drawLineForwardCells (bp_per_pix : Int) : Int → Int → Int → Nat →
    List (Int × Int)
  | _, _, _, 0 => []
  | beg1, beg2, size, fuel + 1 =>
    let q1 := beg1.fdiv bp_per_pix
    let r1 := beg1.fmod bp_per_pix
    let q2 := beg2.fdiv bp_per_pix
    let r2 := beg2.fmod bp_per_pix
    let next_pix := min (bp_per_pix - r1) (bp_per_pix - r2)
    (q1, q2) ::
      (if size ≤ next_pix then []
       else drawLineForwardCells bp_per_pix (beg1 + next_pix)
         (beg2 + next_pix) (size - next_pix) fuel)

/-- The cells `(q1, q2)` visited by `drawLineReverse`, in visiting
order. -/
def drawLineReverseCells (bp_per_pix : Int) : Int → Int → Int → Nat →
    List (Int × Int)
  | _, _, _, 0 => []
  | beg1, beg2, size, fuel + 1 =>
    let q1 := beg1.fdiv bp_per_pix
    let r1 := beg1.fmod bp_per_pix
    let q2 := beg2.fdiv bp_per_pix
    let r2 := beg2.fmod bp_per_pix
    let next_pix := min (bp_per_pix - r1) (r2 + 1)
    (q1, q2) ::
      (if size ≤ next_pix then []
       else drawLineReverseCells bp_per_pix (beg1 + next_pix)
         (beg2 - next_pix) (size - next_pix) fuel)

/-- Draw all blocks of one alignment into the grid, as done by the body of
the `for seq1, seq2, blocks in alignments:` loop of `alignmentPixels`. -/
def drawBlocks (width : Nat) (bp_per_pix : Int) (isReverse1 isReverse2 : Bool)
    (ori1 ori2 : Int) (blocks : List Block) (hits : List Nat) : List Nat :=
  blocks.foldl
    (fun h b =>
      let size := b.2.2
      let beg1 := if isReverse1 then -(b.1 + size) else b.1
      let beg2 := if isReverse1 then -(b.2.1 + size) else b.2.1
      if isReverse1 = isReverse2 then
        drawLineForward h width bp_per_pix (ori1 + beg1) (ori2 + beg2) size
          (size.toNat + 1)
      else
        drawLineReverse h width bp_per_pix (ori1 + beg1) (ori2 - beg2 - 1) size
          (size.toNat + 1))
    hits

/-- The main loop of source `alignmentPixels` over the alignment list,
threading the grid.  Errors mirror the places where Python raises:
`blocks[0]` on an empty block list, dictionary lookup misses, and
unpacking `None` from `strandAndOrigin`. -/
def alnLoop (width : Nat) (bp_per_pix : Int)
    (rangeDict1 rangeDict2 : List (String × List RangeInfo)) :
    List Aln → List Nat → Except String (List Nat)
  | [], hits => .ok hits
  | (seq1, seq2, blocks) :: rest, hits =>
    match blocks with
    | [] => .error "empty block list"
    | (beg1, beg2, size) :: _ =>
      match lookupRanges rangeDict1 seq1, lookupRanges rangeDict2 seq2 with
      | some rs1, some rs2 =>
        match strandAndOrigin rs1 beg1 size, strandAndOrigin rs2 beg2 size with
        | some (isReverse1, ori1), some (isReverse2, ori2) =>
          alnLoop width bp_per_pix rangeDict1 rangeDict2 rest
            (drawBlocks width bp_per_pix isReverse1 isReverse2 ori1 ori2
              blocks hits)
        | _, _ => .error "no range found for an alignment"
      | _, _ => .error "sequence name not in range dictionary"

/-- Source `alignmentPixels`: start from an all-zero `width*height` grid
and draw every alignment. -/
def alignmentPixels (width height : Nat) (alignments : List Aln)
    (bp_per_pix : Int)
    (rangeDict1 rangeDict2 : List (String × List RangeInfo)) :
    Except String (List Nat) :=
  alnLoop width bp_per_pix rangeDict1 rangeDict2 alignments
    (List.replicate (width * height) 0)

/-- The write trace of one alignment: each visited cell as a pair of its
linear grid index `q2*width + q1` and the OR mask (1 for same-orientation,
2 for opposite-orientation drawing). -/
def blockWrites (width : Nat) (bp_per_pix : Int)
    (isReverse1 isReverse2 : Bool) (ori1 ori2 : Int) (blocks : List Block) :
    List (Int × Nat) :=
  blocks.flatMap
    (fun b =>
      let size := b.2.2
      let beg1 := if isReverse1 then -(b.1 + size) else b.1
      let beg2 := if isReverse1 then -(b.2.1 + size) else b.2.1
      if isReverse1 = isReverse2 then
        (drawLineForwardCells bp_per_pix (ori1 + beg1) (ori2 + beg2) size
          (size.toNat + 1)).map (fun c => (c.2 * width + c.1, 1))
      else
        (drawLineReverseCells bp_per_pix (ori1 + beg1) (ori2 - beg2 - 1) size
          (size.toNat + 1)).map (fun c => (c.2 * width + c.1, 2)))

/-- The write trace of `alignmentPixels`: the grid writes of every
alignment in drawing order, or the error `alignmentPixels` would hit. -/
def alignmentWrites (width : Nat) (bp_per_pix : Int)
    (rangeDict1 rangeDict2 : List (String × List RangeInfo)) :
    List Aln → Except String (List (Int × Nat))
  | [] => .ok []
  | (seq1, seq2, blocks) :: rest =>
    match blocks with
    | [] => .error "empty block list"
    | (beg1, beg2, size) :: _ =>
      match lookupRanges rangeDict1 seq1, lookupRanges rangeDict2 seq2 with
      | some rs1, some rs2 =>
        match strandAndOrigin rs1 beg1 size, strandAndOrigin rs2 beg2 size with
        | some (isReverse1, ori1), some (isReverse2, ori2) =>
          match alignmentWrites width bp_per_pix rangeDict1 rangeDict2 rest with
          | .ok ws =>
            .ok (blockWrites width bp_per_pix isReverse1 isReverse2 ori1 ori2
              blocks ++ ws)
          | .error e => .error e
        | _, _ => .error "no range found for an alignment"
      | _, _ => .error "sequence name not in range dictionary"

/-- Group consecutive elements related by `f`, keeping only the grouped
lists (the grouping part of Python `itertools.groupby`). -/
def groupConsec {α : Type} (f : α → α → Bool) : List α → List (List α)
  | [] => []
  | a :: rest =>
    match groupConsec f rest with
    | [] => [[a]]
    | [] :: gs => [a] :: [] :: gs
    | (b :: g) :: gs =>
      if f a b then (a :: b :: g) :: gs else [a] :: (b :: g) :: gs

/-- Split a character list into maximal runs of digits and non-digits,
each run tagged `true` when it is a digit run. -/
def charRuns : List Char → List (Bool × List Char)
  | [] => []
  | c :: cs =>
    match charRuns cs with
    | (b, run) :: t =>
      if c.isDigit = b then (b, c :: run) :: t
      else (c.isDigit, [c]) :: (b, run) :: t
    | [] => [(c.isDigit, [c])]

/-- Numeric value of a digit run. -/
def digitsToNat (run : List Char) : Nat :=
  run.foldl (fun n c => 10 * n + (c.toNat - 48)) 0

/-- Source `natural_sort_key`: the string split at digit runs, with digit
runs replaced by their numeric value. -/
def natural_sort_key (s : String) : List (String ⊕ Nat) :=
  (charRuns s.toList).map
    (fun r =>
      if r.1 then Sum.inr (digitsToNat r.2) else Sum.inl (String.mk r.2))

/-- Compare two parts of natural sort keys.  (Python raises on a
string-int comparison; mixed parts are ordered arbitrarily here.) -/
def cmpPart : (String ⊕ Nat) → (String ⊕ Nat) → Ordering
  | Sum.inl s, Sum.inl t => compare s t
  | Sum.inr m, Sum.inr n => compare m n
  | Sum.inl _, Sum.inr _ => .lt
  | Sum.inr _, Sum.inl _ => .gt

/-- Lexicographic comparison of lists from a part comparison. -/
def cmpList {α : Type} (f : α → α → Ordering) : List α → List α → Ordering
  | [], [] => .eq
  | [], _ :: _ => .lt
  | _ :: _, [] => .gt
  | x :: xs, y :: ys =>
    match f x y with
    | .eq => cmpList f xs ys
    | o => o

/-- Source `nameKey`: natural sort key of the group's sequence name. -/
def nameKey (oneSeqRanges : List SeqRange4) : List (String ⊕ Nat) :=
  natural_sort_key oneSeqRanges.headI.1

/-- Source `sizeKey`: the negated total size with `nameKey` tie-break. -/
def sizeKey (oneSeqRanges : List SeqRange4) : Int × List (String ⊕ Nat) :=
  ((oneSeqRanges.map (fun r => r.2.1 - r.2.2.1)).sum, nameKey oneSeqRanges)

/-- Comparison of `sizeKey` values. -/
def cmpSizeKey (a b : Int × List (String ⊕ Nat)) : Ordering :=
  match compare a.1 b.1 with
  | .eq => cmpList cmpPart a.2 b.2
  | o => o

/-- Source `rankAndFlipPerSeq`: rank each (grouped) sequence of the other
axis and record its presentation flip. -/
def rankAndFlipPerSeq (seqRanges : List SeqRange4) :
    List (String × Nat × Int) :=
  ((groupConsec (fun a b => a.1 == b.1) seqRanges).enum).map
    (fun g =>
      let strandNum := g.2.headI.2.2.2
      (g.2.headI.1, g.1, if strandNum < 2 then (1 : Int) else -1))

/-- Source `alignmentSortData`: per alignment, its name on this axis, the
partner rank, the flipped partner position and the aligned pair count. -/
def alignmentSortData (alignments : List Aln) (seqIndex : Nat)
    (otherNamesToRanksAndFlips : List (String × Nat × Int)) :
    List (String × Nat × Int × Int) :=
  let otherIndex := 1 - seqIndex
  alignments.map (fun i =>
    let blocks := i.2.2
    let rf := (List.lookup (alnName i otherIndex)
      otherNamesToRanksAndFlips).getD (0, 1)
    let otherPos := rf.2 * |blockCoord blocks.headI otherIndex +
      blockCoord blocks.getLastI otherIndex + blocks.getLastI.2.2|
    let numOfAlignedLetterPairs := (blocks.map (fun b => b.2.2)).sum
    (alnName i seqIndex, rf.1, otherPos, numOfAlignedLetterPairs))

/-- Python tuple comparison of `alignmentSortData` entries. -/
def cmpAlnTuple (a b : String × Nat × Int × Int) : Ordering :=
  match compare a.1 b.1 with
  | .eq =>
    match compare a.2.1 b.2.1 with
    | .eq =>
      match compare a.2.2.1 b.2.2.1 with
      | .eq => compare a.2.2.2 b.2.2.2
      | o => o
    | o => o
  | o => o

/-- The early-return loop of source `alignmentKey`; `none` when the loop
runs out (Python would then sort on `None` keys and raise). -/
def akLoop : Int → List (String × Nat × Int × Int) → Option (Nat × Int)
  | _, [] => none
  | toMiddle, i :: rest =>
    let t := toMiddle - i.2.2.2
    if t < 0 then some (i.2.1, i.2.2.1) else akLoop t rest

/-- Source `alignmentKey`: walk the sequence's alignments until half the
aligned pairs are consumed; the placement key is that alignment's partner
rank and position. -/
def alignmentKey
    (seqNamesToLists : List (String × List (String × Nat × Int × Int)))
    (oneSeqRanges : List SeqRange4) : Option (Nat × Int) :=
  let seqName := oneSeqRanges.headI.1
  let alignmentsOfThisSequence := (List.lookup seqName seqNamesToLists).getD []
  let numOfAlignedLetterPairs :=
    (alignmentsOfThisSequence.map (fun i => i.2.2.2)).sum
  akLoop (numOfAlignedLetterPairs.fdiv 2) alignmentsOfThisSequence

/-- Comparison of optional alignment keys. -/
def cmpOptKey : Option (Nat × Int) → Option (Nat × Int) → Ordering
  | none, none => .eq
  | none, some _ => .lt
  | some _, none => .gt
  | some a, some b =>
    match compare a.1 b.1 with
    | .eq => compare a.2 b.2
    | o => o

/-- Boolean less-or-equal from a comparison (stable sorting with Python
key semantics). -/
def leOfCmp {α : Type} (f : α → α → Ordering) (a b : α) : Bool :=
  decide (f a b ≠ Ordering.gt)

/-- Source `mySortedRanges`: group ranges by sequence name, reverse the
reverse-strand groups, sort the groups by the selected key, flatten. -/
def mySortedRanges (seqRanges : List SeqRange4) (sortOpt : String)
    (seqIndex : Nat) (alignments : List Aln)
    (otherRanges : List SeqRange4) : List SeqRange4 :=
  let g := groupConsec (fun a b => a.1 == b.1) seqRanges
  let g := g.map (fun i => if 1 < i.headI.2.2.2 then i.reverse else i)
  let g :=
    if sortOpt = "1" then
      g.mergeSort (leOfCmp (fun a b => cmpList cmpPart (nameKey a) (nameKey b)))
    else if sortOpt = "2" then
      g.mergeSort (leOfCmp (fun a b => cmpSizeKey (sizeKey a) (sizeKey b)))
    else if sortOpt = "3" then
      let otherNamesToRanksAndFlips := rankAndFlipPerSeq otherRanges
      let alns := (alignmentSortData alignments seqIndex
        otherNamesToRanksAndFlips).mergeSort (leOfCmp cmpAlnTuple)
      let seqNamesToLists :=
        (groupConsec (fun a b => a.1 == b.1) alns).map (fun l => (l.headI.1, l))
      g.mergeSort (leOfCmp (fun a b =>
        cmpOptKey (alignmentKey seqNamesToLists a)
          (alignmentKey seqNamesToLists b)))
    else g
  g.flatten

/-- Source `allSortedRanges`: strand assignment, the two circular
dependency checks, the interdependent sorts of the primary ranges and the
sorts of the secondary ranges. -/
def allSortedRanges (strands1 strands2 sort1 sort2 : String)
    (alignments alignmentsB : List Aln)
    (seqRanges1 seqRangesB1 seqRanges2 seqRangesB2 : List SeqRange) :
    Except String (List SeqRange4 × List SeqRange4) :=
  let so1 := twoValuesFromOption strands1 ':'
  let so2 := twoValuesFromOption strands2 ':' 
  if so1.1 = "1" ∧ so2.1 = "1" then
    .error "the strand options have circular dependency"
  else
    let sr1 := rangesWithStrandInfo seqRanges1 so1.1 alignments 0
    let sr2 := rangesWithStrandInfo seqRanges2 so2.1 alignments 1
    let srB1 := rangesWithStrandInfo seqRangesB1 so1.2 alignmentsB 0
    let srB2 := rangesWithStrandInfo seqRangesB2 so2.2 alignmentsB 1
    let o1 := twoValuesFromOption sort1 ':'
    let o2 := twoValuesFromOption sort2 ':' 
    if o1.1 = "3" ∧ o2.1 = "3" then
      .error "the sort options have circular dependency"
    else
      let s12 :=
        if o1.1 = "3" then
          let s2 := mySortedRanges sr2 o2.1 1 alignments []
          (mySortedRanges sr1 "3" 0 alignments s2, s2)
        else
          let s1 := mySortedRanges sr1 o1.1 0 alignments []
          (s1,
            if o2.1 = "3" then mySortedRanges sr2 "3" 1 alignments s1
            else mySortedRanges sr2 o2.1 1 alignments [])
      let t1 := mySortedRanges srB1 o1.2 0 alignmentsB s12.2
      let t2 := mySortedRanges srB2 o2.2 1 alignmentsB s12.1
      .ok (s12.1 ++ t1, s12.2 ++ t2)

/-- The pixel budget predicate of the spec: at bases-per-pixel scale `S`
the ranges need at most `maxPixelsInRanges` pixels in total. -/
def fitsInBudget (rangeSizes : List Int) (maxPixelsInRanges S : Int) : Prop :=
  (rangeSizes.map (fun i => div_ceil i S)).sum ≤ maxPixelsInRanges

instance (sizes : List Int) (M S : Int) :
    Decidable (fitsInBudget sizes M S) := by
  unfold fitsInBudget; infer_instance

/-- A position is covered by some interval of the list. -/
def coveredPos (p : Int) (L : List (Int × Int)) : Prop :=
  ∃ r ∈ L, r.1 ≤ p ∧ p < r.2

instance (p : Int) (L : List (Int × Int)) : Decidable (coveredPos p L) := by
  unfold coveredPos; infer_instance

/-- The finite set of covered positions of an interval list. -/
def listCover (L : List (Int × Int)) : Finset Int :=
  L.foldr (fun r s => Finset.Ico r.1 r.2 ∪ s) ∅

/-- Spec-side signed aligned-pair sum of one sequence: total pair count
over the alignments of that sequence, negated for opposite-strand
alignments (the coverage-weighted strand vote of the spec). -/
def signedPairSum (alignments : List Aln) (seqIndex : Nat)
    (name : String) : Int :=
  ((alignments.filter (fun a => alnName a seqIndex == name)).map
    (fun a =>
      let blocks := a.2.2
      let n := (blocks.map (fun b => b.2.2)).sum
      if decide (blocks.headI.1 < 0) ≠ decide (blocks.headI.2.1 < 0) then -n
      else n)).sum

/-- The grid index a write at raw index `idx` lands on: one round of
Python negative-index wrapping, `none` when out of range. -/
def wrapIdx (n : Nat) (idx : Int) : Option Nat :=
  let j := if idx < 0 then idx + n else idx
  if 0 ≤ j ∧ j < n then some j.toNat else none

/-- Some write of the trace `ws` with OR mask `b` lands on grid cell `j`
of a grid of `n` cells. -/
def hitWrite (ws : List (Int × Nat)) (n j b : Nat) : Prop :=
  ∃ w ∈ ws, w.2 = b ∧ wrapIdx n w.1 = some j

instance (ws : List (Int × Nat)) (n j b : Nat) :
    Decidable (hitWrite ws n j b) := by
  unfold hitWrite
  infer_instance

/-! ### Arithmetic helpers: floor and ceiling division -/

theorem ediv_ceil_aux {y q r : Int} (hy : 0 < y) (h1 : 0 ≤ r) (h2 : r < y) :
    (y * q + r + y - 1) / y = q + (if r ≠ 0 then 1 else 0) := by
  by_cases hr : r = 0
  · subst hr
    have he : y * q + 0 + y - 1 = (y - 1) + y * q := by ring
    rw [he, Int.add_mul_ediv_left _ _ hy.ne',
      Int.ediv_eq_zero_of_lt (by linarith) (by linarith)]
    simp
  · have he : y * q + r + y - 1 = (r - 1) + y * (q + 1) := by ring
    rw [he, Int.add_mul_ediv_left _ _ hy.ne',
      Int.ediv_eq_zero_of_lt (by omega) (by omega)]
    simp [hr]

theorem div_ceil_eq_ediv (x : Int) {y : Int} (hy : 0 < y) :
    div_ceil x y = (x + y - 1) / y := by
  unfold div_ceil
  rw [Int.fdiv_eq_ediv _ hy.le, Int.fmod_eq_emod _ hy.le]
  have h0 := Int.ediv_add_emod x y
  have h1 : 0 ≤ x % y := Int.emod_nonneg x hy.ne'
  have h2 : x % y < y := Int.emod_lt_of_pos x hy
  have hx : x + y - 1 = y * (x / y) + (x % y) + y - 1 := by linarith
  rw [hx, ediv_ceil_aux hy h1 h2]

theorem div_ceil_of_decomp {y q r : Int} (hy : 0 < y) (h1 : 0 ≤ r)
    (h2 : r < y) : div_ceil (y * q + r) y = q + (if r ≠ 0 then 1 else 0) := by
  rw [div_ceil_eq_ediv _ hy, ediv_ceil_aux hy h1 h2]

theorem div_ceil_le_iff {x y : Int} (hy : 0 < y) (k : Int) :
    div_ceil x y ≤ k ↔ x ≤ k * y := by
  rw [div_ceil_eq_ediv x hy]
  constructor
  · intro h
    have h2 : (x + y - 1) / y < k + 1 := by linarith
    have h3 := (Int.ediv_lt_iff_lt_mul hy).mp h2
    have e : (k + 1) * y = k * y + y := by ring
    have h4 : x - 1 < k * y := by linarith
    exact Int.sub_one_lt_iff.mp h4
  · intro h
    have e : (k + 1) * y = k * y + y := by ring
    have h3 : x + y - 1 < (k + 1) * y := by linarith
    have h4 := (Int.ediv_lt_iff_lt_mul hy).mpr h3
    linarith

theorem div_ceil_nonneg {x y : Int} (hx : 0 ≤ x) (hy : 0 < y) :
    0 ≤ div_ceil x y := by
  by_contra h
  push_neg at h
  have h2 := (div_ceil_le_iff hy (-1)).mp (by linarith)
  linarith

theorem le_div_ceil_mul (x : Int) {y : Int} (hy : 0 < y) :
    x ≤ div_ceil x y * y :=
  (div_ceil_le_iff hy (div_ceil x y)).mp le_rfl

theorem div_ceil_anti {x y y' : Int} (hx : 0 ≤ x) (hy : 0 < y)
    (hyy : y ≤ y') : div_ceil x y' ≤ div_ceil x y := by
  have hy' : 0 < y' := lt_of_lt_of_le hy hyy
  rw [div_ceil_le_iff hy']
  have h1 := le_div_ceil_mul x hy
  have h2 : div_ceil x y * y ≤ div_ceil x y * y' :=
    mul_le_mul_of_nonneg_left hyy (div_ceil_nonneg hx hy)
  linarith

theorem div_ceil_eq_one {x y : Int} (hx : 1 ≤ x) (hxy : x ≤ y) :
    div_ceil x y = 1 := by
  have hy : 0 < y := by linarith
  have hle : div_ceil x y ≤ 1 := (div_ceil_le_iff hy 1).mpr (by linarith)
  have hgt : ¬ div_ceil x y ≤ 0 := by
    intro h
    have := (div_ceil_le_iff hy 0).mp h
    linarith
  omega

theorem fdiv_neg_eq_neg_div_ceil {x y : Int} (hx : 0 ≤ x) (hy : 0 < y) :
    x.fdiv (-y) = -div_ceil x y := by
  lift x to ℕ using hx
  lift y to ℕ using hy.le
  have hy' : 0 < y := by exact_mod_cast hy
  obtain ⟨n, rfl⟩ : ∃ n, y = n + 1 := ⟨y - 1, by omega⟩
  cases x with
  | zero =>
    simp only [Nat.cast_zero, Int.zero_fdiv]
    unfold div_ceil
    rw [Int.zero_fdiv, Int.zero_fmod]
    simp
  | succ m =>
    have hL : ((m + 1 : ℕ) : Int).fdiv (-((n + 1 : ℕ) : Int)) =
        Int.negSucc (m / (n + 1)) := rfl
    rw [hL]
    have hd := Nat.div_add_mod m (n + 1)
    have hm : m % (n + 1) < n + 1 := Nat.mod_lt m (by omega)
    have hdz : ((n : Int) + 1) * (m / (n + 1) : ℕ) + (m % (n + 1) : ℕ)
        = (m : Int) := by exact_mod_cast hd
    have hy2 : (0 : Int) < (n : Int) + 1 := by positivity
    have hmain : ((m + 1 : ℕ) : Int) = (m : Int) + 1 := by push_cast; ring
    have hden : ((n + 1 : ℕ) : Int) = (n : Int) + 1 := by push_cast; ring
    by_cases hc : m % (n + 1) = n
    · have hcz : ((m % (n + 1) : ℕ) : Int) = (n : Int) := by exact_mod_cast hc
      have key : ((m : Int) + 1) =
          ((n : Int) + 1) * ((m / (n + 1) : ℕ) + 1) + 0 := by
        linear_combination hcz - hdz
      rw [hmain, hden, key, div_ceil_of_decomp hy2 le_rfl hy2]
      rw [Int.negSucc_eq]
      simp
    · have hlt : m % (n + 1) < n := Nat.lt_of_le_of_ne (Nat.lt_succ_iff.mp hm) hc
      have hcz : ((m % (n + 1) : ℕ) : Int) + 1 < (n : Int) + 1 := by
        exact_mod_cast Nat.succ_lt_succ hlt
      have key : ((m : Int) + 1) =
          ((n : Int) + 1) * (m / (n + 1) : ℕ) + ((m % (n + 1) : ℕ) + 1) := by
        linear_combination -hdz
      rw [hmain, hden, key, div_ceil_of_decomp hy2 (by positivity) hcz]
      rw [if_pos (by positivity), Int.negSucc_eq]

theorem sum_fdiv_neg (sizes : List Int) (hpos : ∀ i ∈ sizes, 0 ≤ i) {S : Int}
    (hS : 0 < S) :
    (sizes.map (fun i => i.fdiv (-S))).sum =
      -((sizes.map (fun i => div_ceil i S)).sum) := by
  induction sizes with
  | nil => simp
  | cons a t ih =>
    simp only [List.map_cons, List.sum_cons]
    rw [fdiv_neg_eq_neg_div_ceil (hpos a (by simp)) hS,
      ih (fun i hi => hpos i (List.mem_cons_of_mem a hi))]
    ring

theorem sum_div_ceil_nonneg (sizes : List Int) (hpos : ∀ i ∈ sizes, 0 ≤ i)
    {S : Int} (hS : 0 < S) :
    0 ≤ (sizes.map (fun i => div_ceil i S)).sum := by
  induction sizes with
  | nil => simp
  | cons a t ih =>
    simp only [List.map_cons, List.sum_cons]
    have h1 := div_ceil_nonneg (hpos a (by simp)) hS
    have h2 := ih (fun i hi => hpos i (List.mem_cons_of_mem a hi))
    linarith

theorem le_sum_div_ceil_mul (sizes : List Int) (hpos : ∀ i ∈ sizes, 0 ≤ i)
    {S : Int} (hS : 0 < S) :
    sizes.sum ≤ (sizes.map (fun i => div_ceil i S)).sum * S := by
  induction sizes with
  | nil => simp
  | cons a t ih =>
    simp only [List.map_cons, List.sum_cons]
    have h1 := le_div_ceil_mul a hS
    have h2 := ih (fun i hi => hpos i (List.mem_cons_of_mem a hi))
    have he : (div_ceil a S + (t.map (fun i => div_ceil i S)).sum) * S =
        div_ceil a S * S + (t.map (fun i => div_ceil i S)).sum * S := by ring
    linarith

theorem sum_div_ceil_eq_length (sizes : List Int) (hpos : ∀ i ∈ sizes, 0 < i)
    {S : Int} (hmax : ∀ i ∈ sizes, i ≤ S) :
    (sizes.map (fun i => div_ceil i S)).sum = (sizes.length : Int) := by
  induction sizes with
  | nil => simp
  | cons a t ih =>
    simp only [List.map_cons, List.sum_cons, List.length_cons]
    rw [div_ceil_eq_one (by have := hpos a (by simp); linarith) (hmax a (by simp)),
      ih (fun i hi => hpos i (List.mem_cons_of_mem a hi))
        (fun i hi => hmax i (List.mem_cons_of_mem a hi))]
    push_cast
    ring

theorem bpPerPixLoop_succ (sizes : List Int) (negLimit nb : Int) (fuel : Nat) :
    bpPerPixLoop sizes negLimit nb (fuel + 1) =
      if negLimit ≤ (sizes.map (fun i => i.fdiv nb)).sum then some (-nb)
      else bpPerPixLoop sizes negLimit (nb - 1) fuel := rfl

theorem bpPerPixLoop_finds (sizes : List Int) (negLimit : Int) :
    ∀ (k : Nat) (nb : Int) (fuel : Nat),
      (∀ j : Nat, j < k →
        ¬ negLimit ≤ (sizes.map (fun i => i.fdiv (nb - (j : Int)))).sum) →
      negLimit ≤ (sizes.map (fun i => i.fdiv (nb - (k : Int)))).sum →
      k < fuel →
      bpPerPixLoop sizes negLimit nb fuel = some (-(nb - (k : Int))) := by
  intro k
  induction k with
  | zero =>
    intro nb fuel h0 hk hf
    cases fuel with
    | zero => omega
    | succ f =>
      rw [bpPerPixLoop_succ, if_pos (by simpa using hk)]
      simp
  | succ k ih =>
    intro nb fuel h0 hk hf
    cases fuel with
    | zero => omega
    | succ f =>
      rw [bpPerPixLoop_succ]
      have hfail := h0 0 (by omega)
      rw [if_neg (by simpa using hfail)]
      have hrec := ih (nb - 1) f ?_ ?_ (by omega)
      · rw [hrec]
        congr 1
        push_cast
        ring
      · intro j hj
        have h2 := h0 (j + 1) (by omega)
        have e : nb - 1 - (j : Int) = nb - ((j + 1 : Nat) : Int) := by
          push_cast; ring
        rw [e]
        exact h2
      · have e : nb - 1 - (k : Int) = nb - ((k + 1 : Nat) : Int) := by
          push_cast; ring
        rw [e]
        exact hk

/-- C1: for every non-empty list of positive range sizes, border gap
`pixTweenRanges` and pixel budget `maxPixels` with
`maxPixels - pixTweenRanges*(n-1) >= n`, `get_bp_per_pix` returns the
minimal integer scale `S >= 1` whose ceiling-scaled sizes fit in the
budget; the returned `S` fits and, when `S > 1`, `S - 1` does not. -/
theorem get_bp_per_pix_minimal (rangeSizes : List Int)
    (pixTweenRanges maxPixels : Int) (hne : rangeSizes ≠ [])
    (hpos : ∀ i ∈ rangeSizes, 0 < i) (hp : 0 ≤ pixTweenRanges)
    (hbudget : (rangeSizes.length : Int) ≤
      maxPixels - pixTweenRanges * ((rangeSizes.length : Int) - 1)) :
    ∃ S : Int,
      get_bp_per_pix rangeSizes pixTweenRanges maxPixels = .ok S ∧ 1 ≤ S ∧
      fitsInBudget rangeSizes
        (maxPixels - pixTweenRanges * ((rangeSizes.length : Int) - 1)) S ∧
      (1 < S → ¬ fitsInBudget rangeSizes
        (maxPixels - pixTweenRanges * ((rangeSizes.length : Int) - 1))
        (S - 1)) ∧
      (∀ T : Int, 1 ≤ T →
        fitsInBudget rangeSizes
          (maxPixels - pixTweenRanges * ((rangeSizes.length : Int) - 1)) T →
        S ≤ T) := by
  set M := maxPixels - pixTweenRanges * ((rangeSizes.length : Int) - 1)
    with hMdef
  have hnonneg : ∀ i ∈ rangeSizes, 0 ≤ i := fun i hi => (hpos i hi).le
  have hn1 : 1 ≤ (rangeSizes.length : Int) := by
    have := List.length_pos.mpr hne
    exact_mod_cast this
  have hM1 : (1 : Int) ≤ M := le_trans hn1 hbudget
  have hsum1 : 1 ≤ rangeSizes.sum := by
    have := List.sum_pos rangeSizes hpos hne
    linarith
  have hex : ∃ s : Nat, 1 ≤ (s : Int) ∧ fitsInBudget rangeSizes M s := by
    refine ⟨rangeSizes.sum.toNat, ?_, ?_⟩
    · rw [Int.toNat_of_nonneg (by linarith)]
      exact hsum1
    · unfold fitsInBudget
      rw [Int.toNat_of_nonneg (by linarith : (0:Int) ≤ rangeSizes.sum)]
      rw [sum_div_ceil_eq_length rangeSizes hpos
        (fun i hi => List.single_le_sum hnonneg i hi)]
      exact hbudget
  set s₀ : Int := div_ceil rangeSizes.sum M with hs₀def
  obtain ⟨hs1, hsfits⟩ := Nat.find_spec hex
  have hmin : ∀ T : Int, 1 ≤ T → fitsInBudget rangeSizes M T →
      ((Nat.find hex : Nat) : Int) ≤ T := by
    intro T hT hTfits
    have hTn : ((T.toNat : Nat) : Int) = T := Int.toNat_of_nonneg (by linarith)
    have hfind : Nat.find hex ≤ T.toNat := by
      apply Nat.find_min' hex
      refine ⟨by rw [hTn]; exact hT, ?_⟩
      rw [hTn]
      exact hTfits
    calc ((Nat.find hex : Nat) : Int) ≤ ((T.toNat : Nat) : Int) := by
          exact_mod_cast hfind
      _ = T := hTn
  have hsmallfail : ∀ S : Int, 1 ≤ S → S < s₀ →
      ¬ fitsInBudget rangeSizes M S := by
    intro S hS hlt hfits
    unfold fitsInBudget at hfits
    have h1 : ¬ div_ceil rangeSizes.sum S ≤ M := by
      intro hcle
      have hsle := (div_ceil_le_iff (by linarith : (0:Int) < S) M).mp hcle
      have h2 : ¬ s₀ ≤ S := by linarith
      rw [hs₀def, div_ceil_le_iff (by linarith : (0:Int) < M) S] at h2
      push_neg at h2
      have h3 := mul_comm M S
      linarith
    apply h1
    calc div_ceil rangeSizes.sum S
        ≤ (rangeSizes.map (fun i => div_ceil i S)).sum := by
          rw [div_ceil_le_iff (by linarith : (0:Int) < S)]
          exact le_sum_div_ceil_mul rangeSizes hnonneg (by linarith)
      _ ≤ M := hfits
  have hs0pos : 1 ≤ s₀ := by
    by_contra h
    push_neg at h
    have h2 := (div_ceil_le_iff (show (0:Int) < M by linarith) 0).mp
      (by rw [← hs₀def]; linarith)
    simp at h2
    linarith
  have hs0le : s₀ ≤ ((Nat.find hex : Nat) : Int) := by
    by_contra h
    push_neg at h
    exact hsmallfail _ hs1 h hsfits
  have hbridge : ∀ S : Int, 1 ≤ S →
      ((-M ≤ (rangeSizes.map (fun i => i.fdiv (-S))).sum) ↔
        fitsInBudget rangeSizes M S) := by
    intro S hS
    rw [sum_fdiv_neg rangeSizes hnonneg (by linarith : (0:Int) < S)]
    unfold fitsInBudget
    constructor <;> intro <;> linarith
  have hs0nat : s₀.toNat ≤ Nat.find hex := by
    have : ((s₀.toNat : Nat) : Int) ≤ ((Nat.find hex : Nat) : Int) := by
      rw [Int.toNat_of_nonneg (by linarith)]
      exact hs0le
    exact_mod_cast this
  set k : Nat := Nat.find hex - s₀.toNat with hkdef
  have hkk : (k : Int) = ((Nat.find hex : Nat) : Int) - s₀ := by
    rw [hkdef]
    push_cast [Nat.cast_sub hs0nat]
    rw [Int.toNat_of_nonneg (by linarith)]
  have hfuelbound : Nat.find hex ≤ rangeSizes.sum.toNat := by
    apply Nat.find_min' hex
    refine ⟨?_, ?_⟩
    · rw [Int.toNat_of_nonneg (by linarith)]
      exact hsum1
    · unfold fitsInBudget
      rw [Int.toNat_of_nonneg (by linarith : (0:Int) ≤ rangeSizes.sum)]
      rw [sum_div_ceil_eq_length rangeSizes hpos
        (fun i hi => List.single_le_sum hnonneg i hi)]
      exact hbudget
  have hloop := bpPerPixLoop_finds rangeSizes (-M) k (-s₀)
    (rangeSizes.sum.toNat + 2) ?_ ?_ ?_
  · refine ⟨((Nat.find hex : Nat) : Int), ?_, hs1, hsfits, ?_, hmin⟩
    · have hnb : rangeSizes.sum.fdiv (-M) = -s₀ := by
        rw [fdiv_neg_eq_neg_div_ceil (by linarith) (by linarith), hs₀def]
      have hred : get_bp_per_pix rangeSizes pixTweenRanges maxPixels =
          (if M < (rangeSizes.length : Int) then
            Except.error "cannot fit the image: too many sequences?"
          else
            match bpPerPixLoop rangeSizes (-M) (rangeSizes.sum.fdiv (-M))
                (rangeSizes.sum.toNat + 2) with
            | some s => Except.ok s
            | none => Except.error "fuel exhausted") := rfl
      rw [hred, if_neg (not_lt.mpr hbudget), hnb, hloop]
      have he : -(-s₀ - (k : Int)) = ((Nat.find hex : Nat) : Int) := by
        rw [hkk]; ring
      rw [he]
    · intro hS1 hfits
      have := hmin (((Nat.find hex : Nat) : Int) - 1) (by linarith) hfits
      linarith
  · intro j hj
    have e : -s₀ - (j : Int) = -(s₀ + (j : Int)) := by ring
    rw [e, hbridge (s₀ + (j : Int))
      (by linarith [Int.natCast_nonneg j])]
    intro hfits
    have hjk : s₀ + (j : Int) < ((Nat.find hex : Nat) : Int) := by
      have : (j : Int) < (k : Int) := by exact_mod_cast hj
      linarith [hkk]
    have hmlt : (s₀ + (j : Int)).toNat < Nat.find hex := by
      rw [Int.toNat_lt (by linarith [Int.natCast_nonneg j])]
      exact hjk
    apply Nat.find_min hex hmlt
    have hcast : (((s₀ + (j : Int)).toNat : Nat) : Int) = s₀ + (j : Int) :=
      Int.toNat_of_nonneg (by linarith [Int.natCast_nonneg j])
    refine ⟨by rw [hcast]; linarith [Int.natCast_nonneg j], ?_⟩
    unfold fitsInBudget
    rw [hcast]
    exact hfits
  · have e : -s₀ - (k : Int) = -((Nat.find hex : Nat) : Int) := by
      rw [hkk]; ring
    rw [e, hbridge _ (by exact_mod_cast hs1)]
    exact hsfits
  · omega

theorem get_bp_per_pix_minimal_witness :
    ∃ S : Int,
      get_bp_per_pix [3, 1] 1 4 = .ok S ∧ 1 ≤ S ∧
      fitsInBudget [3, 1] (4 - 1 * ((([3, 1] : List Int).length : Int) - 1)) S ∧
      (1 < S → ¬ fitsInBudget [3, 1]
        (4 - 1 * ((([3, 1] : List Int).length : Int) - 1)) (S - 1)) ∧
      (∀ T : Int, 1 ≤ T →
        fitsInBudget [3, 1]
          (4 - 1 * ((([3, 1] : List Int).length : Int) - 1)) T →
        S ≤ T) :=
  get_bp_per_pix_minimal [3, 1] 1 4 (by decide) (by decide) (by decide)
    (by decide)

/-- C5: the two fatal configuration checks fire unconditionally: whenever
both primary sort options are mode "3", `allSortedRanges` returns an error
(no sorted ranges are ever produced), and whenever the border-adjusted
pixel budget is smaller than the number of ranges, `get_bp_per_pix`
returns an error (no scale is ever produced). -/
theorem config_errors_detected :
    (∀ (strands1 strands2 sort1 sort2 : String)
       (alignments alignmentsB : List Aln)
       (r1 rB1 r2 rB2 : List SeqRange),
       (twoValuesFromOption sort1 ':').1 = "3" →
       (twoValuesFromOption sort2 ':').1 = "3" →
       ∃ e, allSortedRanges strands1 strands2 sort1 sort2 alignments
         alignmentsB r1 rB1 r2 rB2 = .error e) ∧
    (∀ (rangeSizes : List Int) (pixTweenRanges maxPixels : Int),
       maxPixels - pixTweenRanges * ((rangeSizes.length : Int) - 1) <
         (rangeSizes.length : Int) →
       get_bp_per_pix rangeSizes pixTweenRanges maxPixels =
         .error "cannot fit the image: too many sequences?") := by
  constructor
  · intro strands1 strands2 sort1 sort2 alns alnsB r1 rB1 r2 rB2 h1 h2
    simp only [allSortedRanges]
    by_cases hs : (twoValuesFromOption strands1 ':').1 = "1" ∧
        (twoValuesFromOption strands2 ':').1 = "1"
    · rw [if_pos hs]
      exact ⟨_, rfl⟩
    · rw [if_neg hs, if_pos ⟨h1, h2⟩]
      exact ⟨_, rfl⟩
  · intro sizes p M hlt
    simp only [get_bp_per_pix]
    rw [if_pos hlt]

theorem config_errors_detected_witness :
    (∃ e, allSortedRanges "0" "0" "3" "3" [] [] [] [] [] [] = .error e) ∧
    get_bp_per_pix [5] 1 0 =
      .error "cannot fit the image: too many sequences?" :=
  ⟨config_errors_detected.1 "0" "0" "3" "3" [] [] [] [] [] []
    (by decide) (by decide),
   config_errors_detected.2 [5] 1 0 (by decide)⟩

theorem dictGetD_dictAdd (d : List (String × Int)) (k : String) (v : Int)
    (name : String) :
    dictGetD (dictAdd d k v) name =
      dictGetD d name + (if k = name then v else 0) := by
  induction d with
  | nil =>
    by_cases h : k = name
    · subst h
      simp [dictAdd, dictGetD, List.lookup]
    · have hb : (name == k) = false := by
        simp only [beq_eq_false_iff_ne, ne_eq]
        exact fun e => h e.symm
      simp [dictAdd, dictGetD, List.lookup, hb, h]
  | cons hd tl ih =>
    obtain ⟨k', v'⟩ := hd
    by_cases h : k' = k
    · subst h
      by_cases h2 : k' = name
      · subst h2
        simp [dictAdd, dictGetD, List.lookup]
      · have hb : (name == k') = false := by
          simp only [beq_eq_false_iff_ne, ne_eq]
          exact fun e => h2 e.symm
        simp [dictAdd, dictGetD, List.lookup, hb, h2]
    · simp only [dictAdd, if_neg h, dictGetD, List.lookup]
      by_cases h2 : name = k'
      · have hb : (name == k') = true := by simp [beq_iff_eq, h2]
        simp only [hb]
        have hk : ¬ k = name := fun e => h (by rw [← h2, ← e])
        simp [hk]
      · have hb : (name == k') = false := by
          simp only [beq_eq_false_iff_ne, ne_eq]
          exact h2
        simp only [hb]
        have h3 := ih
        simp only [dictGetD] at h3
        exact h3

theorem signedPairSum_cons (a : Aln) (t : List Aln) (seqIndex : Nat)
    (name : String) :
    signedPairSum (a :: t) seqIndex name =
      (if alnName a seqIndex = name then
        (let blocks := a.2.2
         let n := (blocks.map (fun b => b.2.2)).sum
         if decide (blocks.headI.1 < 0) ≠ decide (blocks.headI.2.1 < 0) then -n
         else n)
       else 0) + signedPairSum t seqIndex name := by
  by_cases h : alnName a seqIndex = name
  · simp [signedPairSum, List.filter_cons, h]
  · simp [signedPairSum, List.filter_cons, h]

theorem forwardMinusReverse_lookup (alignments : List Aln) (seqIndex : Nat)
    (name : String) :
    dictGetD (forwardMinusReverse alignments seqIndex) name =
      signedPairSum alignments seqIndex name := by
  suffices h : ∀ (alns : List Aln) (d : List (String × Int)),
      dictGetD
        (alns.foldl
          (fun d i =>
            let blocks := i.2.2
            let b0 := blocks.headI
            let numOfAlignedLetterPairs := (blocks.map (fun b => b.2.2)).sum
            let numOfAlignedLetterPairs :=
              if decide (b0.1 < 0) ≠ decide (b0.2.1 < 0) then
                -numOfAlignedLetterPairs
              else numOfAlignedLetterPairs
            dictAdd d (alnName i seqIndex) numOfAlignedLetterPairs)
          d) name =
        dictGetD d name + signedPairSum alns seqIndex name by
    have h2 := h alignments []
    unfold forwardMinusReverse
    rw [h2]
    simp [dictGetD, List.lookup]
  intro alns
  induction alns with
  | nil =>
    intro d
    simp [signedPairSum]
  | cons a t ih =>
    intro d
    rw [List.foldl_cons, ih, dictGetD_dictAdd, signedPairSum_cons]
    by_cases h : alnName a seqIndex = name
    · rw [if_pos h]
      ring
    · rw [if_neg h]
      ring

/-- C9: with strand option "1", `rangesWithStrandInfo` assigns strand 1
(forward) exactly when the signed aligned-pair sum of the sequence is
nonnegative and strand 2 (reverse) otherwise; a sequence with no
alignments has signed sum 0 and is therefore forward. -/
theorem rangesWithStrandInfo_vote (seqRanges : List SeqRange)
    (alignments : List Aln) (seqIndex : Nat) :
    (rangesWithStrandInfo seqRanges "1" alignments seqIndex =
      seqRanges.map (fun r =>
        (r.1, r.2.1, r.2.2,
          if 0 ≤ signedPairSum alignments seqIndex r.1 then 1 else 2))) ∧
    (∀ name : String, (∀ a ∈ alignments, alnName a seqIndex ≠ name) →
      signedPairSum alignments seqIndex name = 0) := by
  constructor
  · unfold rangesWithStrandInfo
    simp only [if_pos rfl]
    apply List.map_congr_left
    intro r _
    rw [forwardMinusReverse_lookup]
    simp
  · intro name h
    unfold signedPairSum
    rw [List.filter_eq_nil_iff.mpr]
    · simp
    · intro a ha
      simpa [beq_iff_eq] using h a ha

theorem rangesWithStrandInfo_vote_witness :
    rangesWithStrandInfo [("s", 0, 5)] "1" [] 0 = [("s", 0, 5, 1)] ∧
    signedPairSum [] 0 "x" = 0 := by
  constructor
  · rw [(rangesWithStrandInfo_vote [("s", 0, 5)] [] 0).1]
    decide
  · exact (rangesWithStrandInfo_vote [] [] 0).2 "x" (by simp)

theorem cropOne_eq_some {cb1 ce1 cb2 ce2 : Int} {b c : Block}
    (h : cropOne cb1 ce1 cb2 ce2 b = some c) :
    0 < c.2.2 ∧
    b.1 ≤ c.1 ∧ c.1 + c.2.2 ≤ b.1 + b.2.2 ∧
    b.2.1 ≤ c.2.1 ∧ c.2.1 + c.2.2 ≤ b.2.1 + b.2.2 ∧
    cb1 ≤ c.1 ∧ c.1 + c.2.2 ≤ ce1 ∧
    cb2 ≤ c.2.1 ∧ c.2.1 + c.2.2 ≤ ce2 ∧
    c.2.1 - c.1 = b.2.1 - b.1 := by
  simp only [cropOne] at h
  split at h
  · exact absurd h (by simp)
  · split at h
    · exact absurd h (by simp)
    · next h1 h2 =>
      obtain rfl := (Option.some.injEq _ _).mp h.symm
      push_neg at h1 h2
      simp only []
      refine ⟨?_, ?_, ?_, ?_, ?_, ?_, ?_, ?_, ?_, ?_⟩ <;> omega

/-- `croppedBlocks` on a single pair of ranges is one clipping pass over
the blocks with the strand-adjusted window. -/
theorem croppedBlocks_pair (blocks : List Block) (r1 r2 : Int × Int) :
    croppedBlocks blocks [r1] [r2] =
      blocks.filterMap
        (cropOne (if blocks.headI.1 < 0 then -r1.2 else r1.1)
          (if blocks.headI.1 < 0 then -r1.1 else r1.2)
          (if blocks.headI.2.1 < 0 then -r2.2 else r2.1)
          (if blocks.headI.2.1 < 0 then -r2.1 else r2.2)) := by
  simp [croppedBlocks]

/-- C6: for a block list that is monotonic increasing in both coordinates
with positive sizes, clipping against one pair of ranges yields only
positive-size blocks lying wholly inside the strand-adjusted crop window,
drops empty clips, and never yields two overlapping blocks in either
coordinate. -/
theorem croppedBlocks_pair_sound (blocks : List Block) (r1 r2 : Int × Int)
    (hmono : List.Pairwise
      (fun x y => x.1 + x.2.2 ≤ y.1 ∧ x.2.1 + x.2.2 ≤ y.2.1) blocks)
    (hsz : ∀ b ∈ blocks, 0 < b.2.2) :
    (∀ c ∈ croppedBlocks blocks [r1] [r2],
      0 < c.2.2 ∧
      (if blocks.headI.1 < 0 then -r1.2 else r1.1) ≤ c.1 ∧
      c.1 + c.2.2 ≤ (if blocks.headI.1 < 0 then -r1.1 else r1.2) ∧
      (if blocks.headI.2.1 < 0 then -r2.2 else r2.1) ≤ c.2.1 ∧
      c.2.1 + c.2.2 ≤ (if blocks.headI.2.1 < 0 then -r2.1 else r2.2)) ∧
    List.Pairwise
      (fun x y => (x.1 + x.2.2 ≤ y.1 ∨ y.1 + y.2.2 ≤ x.1) ∧
        (x.2.1 + x.2.2 ≤ y.2.1 ∨ y.2.1 + y.2.2 ≤ x.2.1))
      (croppedBlocks blocks [r1] [r2]) := by
  constructor
  · intro c hc
    rw [croppedBlocks_pair] at hc
    obtain ⟨b, _, hb⟩ := List.mem_filterMap.mp hc
    have h := cropOne_eq_some hb
    exact ⟨h.1, h.2.2.2.2.2.1, h.2.2.2.2.2.2.1, h.2.2.2.2.2.2.2.1,
      h.2.2.2.2.2.2.2.2.1⟩
  · rw [croppedBlocks_pair, List.pairwise_filterMap]
    refine hmono.imp ?_
    intro a b hab x hx y hy
    rw [Option.mem_def] at hx hy
    have ha := cropOne_eq_some hx
    have hb := cropOne_eq_some hy
    constructor
    · left
      calc x.1 + x.2.2 ≤ a.1 + a.2.2 := ha.2.2.1
        _ ≤ b.1 := hab.1
        _ ≤ y.1 := hb.2.1
    · left
      calc x.2.1 + x.2.2 ≤ a.2.1 + a.2.2 := ha.2.2.2.2.1
        _ ≤ b.2.1 := hab.2
        _ ≤ y.2.1 := hb.2.2.2.1

theorem croppedBlocks_pair_sound_witness :
    (∀ c ∈ croppedBlocks [((0 : Int), (0 : Int), (5 : Int))] [(1, 3)] [(0, 10)],
      0 < c.2.2 ∧
      (if ([((0 : Int), (0 : Int), (5 : Int))] : List Block).headI.1 < 0
        then -(3 : Int) else 1) ≤ c.1 ∧
      c.1 + c.2.2 ≤ (if ([((0 : Int), (0 : Int), (5 : Int))] : List Block).headI.1 < 0
        then -(1 : Int) else 3) ∧
      (if ([((0 : Int), (0 : Int), (5 : Int))] : List Block).headI.2.1 < 0
        then -(10 : Int) else 0) ≤ c.2.1 ∧
      c.2.1 + c.2.2 ≤ (if ([((0 : Int), (0 : Int), (5 : Int))] : List Block).headI.2.1 < 0
        then -(0 : Int) else 10)) ∧
    List.Pairwise
      (fun x y => (x.1 + x.2.2 ≤ y.1 ∨ y.1 + y.2.2 ≤ x.1) ∧
        (x.2.1 + x.2.2 ≤ y.2.1 ∨ y.2.1 + y.2.2 ≤ x.2.1))
      (croppedBlocks [((0 : Int), (0 : Int), (5 : Int))] [(1, 3)] [(0, 10)]) :=
  croppedBlocks_pair_sound [(0, 0, 5)] (1, 3) (0, 10) (by decide) (by decide)

/-- C10: every clipped block keeps the diagonal offset of the block it was
clipped from, and only shortens it: its first coordinate interval is a
subinterval of the source block's. -/
theorem croppedBlocks_diagonal (blocks : List Block)
    (ranges1 ranges2 : List (Int × Int)) :
    ∀ c ∈ croppedBlocks blocks ranges1 ranges2,
      ∃ b ∈ blocks, c.2.1 - c.1 = b.2.1 - b.1 ∧
        b.1 ≤ c.1 ∧ c.1 + c.2.2 ≤ b.1 + b.2.2 := by
  intro c hc
  simp only [croppedBlocks] at hc
  obtain ⟨s1, _, hc⟩ := List.mem_flatMap.mp hc
  obtain ⟨s2, _, hc⟩ := List.mem_flatMap.mp hc
  obtain ⟨b, hb, hbc⟩ := List.mem_filterMap.mp hc
  have h := cropOne_eq_some hbc
  exact ⟨b, hb, h.2.2.2.2.2.2.2.2.2, h.2.1, h.2.2.1⟩

theorem croppedBlocks_diagonal_witness :
    ∃ b ∈ ([((0 : Int), (0 : Int), (5 : Int))] : List Block),
      ((1 : Int), (1 : Int), (2 : Int)).2.1 - (1, 1, 2).1 = b.2.1 - b.1 ∧
      b.1 ≤ ((1 : Int), (1 : Int), (2 : Int)).1 ∧
      ((1 : Int), (1 : Int), (2 : Int)).1 + (1, 1, 2).2.2 ≤ b.1 + b.2.2 :=
  croppedBlocks_diagonal [(0, 0, 5)] [(1, 3)] [(0, 10)] (1, 1, 2) (by decide)

theorem rangesWithOrigins_get? :
    ∀ (n : Nat) (rs : List SeqRange4) (js ks : List Int) (S : Int)
      (r : SeqRange4) (j k : Int),
      rs.get? n = some r → js.get? n = some j → ks.get? n = some k →
      (rangesWithOrigins rs js ks S).get? n =
        some (r.1, (r.2.1, r.2.2.1, decide (1 < r.2.2.2),
          if decide (1 < r.2.2.2) then S * (j + k) + r.2.1
          else S * j - r.2.1)) := by
  intro n
  induction n with
  | zero =>
    intro rs js ks S r j k hr hj hk
    cases rs with
    | nil => simp at hr
    | cons a rs =>
      cases js with
      | nil => simp at hj
      | cons x js =>
        cases ks with
        | nil => simp at hk
        | cons y ks =>
          simp only [List.get?_cons_zero, Option.some.injEq] at hr hj hk
          subst hr; subst hj; subst hk
          simp [rangesWithOrigins]
  | succ n ih =>
    intro rs js ks S r j k hr hj hk
    cases rs with
    | nil => simp at hr
    | cons a rs =>
      cases js with
      | nil => simp at hj
      | cons x js =>
        cases ks with
        | nil => simp at hk
        | cons y ks =>
          simp only [List.get?_cons_succ] at hr hj hk
          simp only [rangesWithOrigins, List.get?_cons_succ]
          exact ih rs js ks S r j k hr hj hk

theorem pix_forward {S pixBeg b e p : Int} (hS : 1 ≤ S) (hbp : b ≤ p)
    (hpe : p < e) :
    pixBeg ≤ (S * pixBeg - b + p).fdiv S ∧
    (S * pixBeg - b + p).fdiv S < pixBeg + div_ceil (e - b) S := by
  have hS0 : (0 : Int) < S := by linarith
  rw [Int.fdiv_eq_ediv _ hS0.le]
  have he : S * pixBeg - b + p = (p - b) + S * pixBeg := by ring
  rw [he, Int.add_mul_ediv_left _ _ hS0.ne']
  constructor
  · have := Int.ediv_nonneg (show (0 : Int) ≤ p - b by linarith) hS0.le
    linarith
  · have h1 : (p - b) / S < div_ceil (e - b) S := by
      by_contra hcon
      push_neg at hcon
      have h3 := le_div_ceil_mul (e - b) hS0
      have h4 : div_ceil (e - b) S * S ≤ ((p - b) / S) * S :=
        mul_le_mul_of_nonneg_right hcon hS0.le
      have h5 : ((p - b) / S) * S ≤ p - b := Int.ediv_mul_le (p - b) hS0.ne'
      linarith
    linarith

theorem pix_reverse {S pixBeg pixLen b e p : Int} (hS : 1 ≤ S) (hbp : b ≤ p)
    (hpe : p < e) (hlen : pixLen = div_ceil (e - b) S) :
    pixBeg ≤ (S * (pixBeg + pixLen) + b - p - 1).fdiv S ∧
    (S * (pixBeg + pixLen) + b - p - 1).fdiv S < pixBeg + pixLen := by
  have hS0 : (0 : Int) < S := by linarith
  rw [Int.fdiv_eq_ediv _ hS0.le]
  have he : S * (pixBeg + pixLen) + b - p - 1 =
      (b - p - 1) + S * (pixBeg + pixLen) := by ring
  rw [he, Int.add_mul_ediv_left _ _ hS0.ne']
  have hneg : (b - p - 1) / S < 0 := Int.ediv_neg' (by linarith) hS0
  constructor
  · have h1 : -pixLen ≤ (b - p - 1) / S := by
      rw [Int.le_ediv_iff_mul_le hS0]
      have h2 := le_div_ceil_mul (e - b) hS0
      rw [← hlen] at h2
      have e2 : -pixLen * S = -(pixLen * S) := by ring
      linarith
    linarith
  · linarith

/-- C2: `rangesWithOrigins` assigns `origin = S*(pixBeg+pixLen)+rangeBeg`
to a reversed range (`strandNum > 1`) and `origin = S*pixBeg - rangeBeg`
otherwise, and for every genomic position inside the range the mapped
pixel `(origin + p) // S` (forward), respectively `(origin - p - 1) // S`
(reversed), lies inside the allotted span `[pixBeg, pixBeg + pixLen)`. -/
theorem rangesWithOrigins_correct (rs : List SeqRange4) (js ks : List Int)
    (S : Int) (n : Nat) (name : String) (b e : Int) (st : Nat) (j k : Int)
    (hS : 1 ≤ S) (hbe : b < e)
    (hr : rs.get? n = some (name, b, e, st)) (hj : js.get? n = some j)
    (hk : ks.get? n = some k) (hkval : k = div_ceil (e - b) S) :
    (rangesWithOrigins rs js ks S).get? n =
      some (name, (b, e, decide (1 < st),
        if 1 < st then S * (j + k) + b else S * j - b)) ∧
    (∀ p : Int, b ≤ p → p < e →
      (1 < st →
        j ≤ (S * (j + k) + b - p - 1).fdiv S ∧
        (S * (j + k) + b - p - 1).fdiv S < j + k) ∧
      (¬ 1 < st →
        j ≤ (S * j - b + p).fdiv S ∧ (S * j - b + p).fdiv S < j + k)) := by
  constructor
  · have h := rangesWithOrigins_get? n rs js ks S (name, b, e, st) j k hr hj hk
    rw [h]
    simp
  · intro p hbp hpe
    constructor
    · intro _
      exact @pix_reverse S j k b e p hS hbp hpe hkval
    · intro _
      have h := @pix_forward S j b e p hS hbp hpe
      rw [← hkval] at h
      exact h

theorem rangesWithOrigins_correct_witness :
    (rangesWithOrigins [("s", 2, 7, 2)] [10] [3] 2).get? 0 =
      some ("s", (2, 7, decide (1 < 2),
        if 1 < 2 then 2 * (10 + 3) + 2 else 2 * 10 - 2)) ∧
    (∀ p : Int, 2 ≤ p → p < 7 →
      (1 < 2 →
        10 ≤ (2 * (10 + 3) + 2 - p - 1).fdiv 2 ∧
        (2 * (10 + 3) + 2 - p - 1).fdiv 2 < 10 + 3) ∧
      (¬ 1 < 2 →
        10 ≤ (2 * 10 - 2 + p).fdiv 2 ∧ (2 * 10 - 2 + p).fdiv 2 < 10 + 3)) :=
  rangesWithOrigins_correct [("s", 2, 7, 2)] [10] [3] 2 0 "s" 2 7 2 10 3
    (by decide) (by decide) rfl rfl rfl (by decide)

theorem drawLineForwardCells_succ (bp b1 b2 size : Int) (fuel : Nat) :
    drawLineForwardCells bp b1 b2 size (fuel + 1) =
      (b1.fdiv bp, b2.fdiv bp) ::
        (if size ≤ min (bp - b1.fmod bp) (bp - b2.fmod bp) then []
         else drawLineForwardCells bp
           (b1 + min (bp - b1.fmod bp) (bp - b2.fmod bp))
           (b2 + min (bp - b1.fmod bp) (bp - b2.fmod bp))
           (size - min (bp - b1.fmod bp) (bp - b2.fmod bp)) fuel) := rfl

theorem drawLineReverseCells_succ (bp b1 b2 size : Int) (fuel : Nat) :
    drawLineReverseCells bp b1 b2 size (fuel + 1) =
      (b1.fdiv bp, b2.fdiv bp) ::
        (if size ≤ min (bp - b1.fmod bp) (b2.fmod bp + 1) then []
         else drawLineReverseCells bp
           (b1 + min (bp - b1.fmod bp) (b2.fmod bp + 1))
           (b2 - min (bp - b1.fmod bp) (b2.fmod bp + 1))
           (size - min (bp - b1.fmod bp) (b2.fmod bp + 1)) fuel) := rfl

theorem drawLineForward_succ (hits : List Nat) (width : Nat)
    (bp b1 b2 size : Int) (fuel : Nat) :
    drawLineForward hits width bp b1 b2 size (fuel + 1) =
      (if size ≤ min (bp - b1.fmod bp) (bp - b2.fmod bp) then
        listOrAt hits (b2.fdiv bp * width + b1.fdiv bp) 1
      else
        drawLineForward (listOrAt hits (b2.fdiv bp * width + b1.fdiv bp) 1)
          width bp (b1 + min (bp - b1.fmod bp) (bp - b2.fmod bp))
          (b2 + min (bp - b1.fmod bp) (bp - b2.fmod bp))
          (size - min (bp - b1.fmod bp) (bp - b2.fmod bp)) fuel) := rfl

theorem drawLineReverse_succ (hits : List Nat) (width : Nat)
    (bp b1 b2 size : Int) (fuel : Nat) :
    drawLineReverse hits width bp b1 b2 size (fuel + 1) =
      (if size ≤ min (bp - b1.fmod bp) (b2.fmod bp + 1) then
        listOrAt hits (b2.fdiv bp * width + b1.fdiv bp) 2
      else
        drawLineReverse (listOrAt hits (b2.fdiv bp * width + b1.fdiv bp) 2)
          width bp (b1 + min (bp - b1.fmod bp) (b2.fmod bp + 1))
          (b2 - min (bp - b1.fmod bp) (b2.fmod bp + 1))
          (size - min (bp - b1.fmod bp) (b2.fmod bp + 1)) fuel) := rfl

theorem drawLineForward_eq_foldl (width : Nat) (bp : Int) :
    ∀ (fuel : Nat) (hits : List Nat) (b1 b2 size : Int),
      drawLineForward hits width bp b1 b2 size fuel =
        (drawLineForwardCells bp b1 b2 size fuel).foldl
          (fun h c => listOrAt h (c.2 * width + c.1) 1) hits := by
  intro fuel
  induction fuel with
  | zero => intros; rfl
  | succ f ih =>
    intro hits b1 b2 size
    rw [drawLineForward_succ, drawLineForwardCells_succ]
    by_cases hc : size ≤ min (bp - b1.fmod bp) (bp - b2.fmod bp)
    · rw [if_pos hc, if_pos hc]
      rfl
    · rw [if_neg hc, if_neg hc, List.foldl_cons, ih]

theorem drawLineReverse_eq_foldl (width : Nat) (bp : Int) :
    ∀ (fuel : Nat) (hits : List Nat) (b1 b2 size : Int),
      drawLineReverse hits width bp b1 b2 size fuel =
        (drawLineReverseCells bp b1 b2 size fuel).foldl
          (fun h c => listOrAt h (c.2 * width + c.1) 2) hits := by
  intro fuel
  induction fuel with
  | zero => intros; rfl
  | succ f ih =>
    intro hits b1 b2 size
    rw [drawLineReverse_succ, drawLineReverseCells_succ]
    by_cases hc : size ≤ min (bp - b1.fmod bp) (b2.fmod bp + 1)
    · rw [if_pos hc, if_pos hc]
      rfl
    · rw [if_neg hc, if_neg hc, List.foldl_cons, ih]

theorem drawLineForwardCells_one (beg1 beg2 : Int) :
    ∀ (fuel : Nat) (b1 b2 L : Int), 1 ≤ L → L.toNat ≤ fuel →
      drawLineForwardCells 1 b1 b2 L fuel =
        (List.range L.toNat).map (fun (t : Nat) => (b1 + (t : Int), b2 + (t : Int))) := by
  intro fuel
  induction fuel with
  | zero =>
    intro b1 b2 L hL hf
    omega
  | succ f ih =>
    intro b1 b2 L hL hf
    rw [drawLineForwardCells_succ]
    simp only [Int.fdiv_one, Int.fmod_one, sub_zero, min_self]
    by_cases hc : L ≤ 1
    · have hL1 : L = 1 := le_antisymm hc hL
      subst hL1
      simp [List.range_succ]
    · rw [if_neg (by omega)]
      rw [ih (b1 + 1) (b2 + 1) (L - 1) (by omega) (by omega)]
      have hnat : L.toNat = (L - 1).toNat + 1 := by omega
      rw [hnat, List.range_succ_eq_map]
      simp only [List.map_cons, List.map_map, Nat.cast_zero, add_zero]
      congr 1
      apply List.map_congr_left
      intro t _
      simp only [Function.comp_apply, Nat.succ_eq_add_one]
      have e1 : b1 + 1 + (t : Int) = b1 + ((t + 1 : Nat) : Int) := by
        push_cast; ring
      have e2 : b2 + 1 + (t : Int) = b2 + ((t + 1 : Nat) : Int) := by
        push_cast; ring
      rw [e1, e2]

/-- C3: with bases-per-pixel 1, `drawLineForward` on a block of length
`L >= 1` visits exactly the `L` distinct diagonal cells
`(beg1+t, beg2+t)` for `t < L`, each exactly once (the grid update is the
left fold of single-cell OR writes over that cell list); and for every
scale `S >= 1` the walk is insensitive to any fuel of at least `L`,
because each iteration advances by at least one base. -/
theorem drawLineForward_unit_scale (hits : List Nat) (width : Nat)
    (beg1 beg2 L : Int) (fuel : Nat) (hL : 1 ≤ L) (hfuel : L.toNat ≤ fuel) :
    drawLineForwardCells 1 beg1 beg2 L fuel =
      (List.range L.toNat).map (fun (t : Nat) => (beg1 + (t : Int), beg2 + (t : Int))) ∧
    (drawLineForwardCells 1 beg1 beg2 L fuel).length = L.toNat ∧
    (drawLineForwardCells 1 beg1 beg2 L fuel).Nodup ∧
    drawLineForward hits width 1 beg1 beg2 L fuel =
      (drawLineForwardCells 1 beg1 beg2 L fuel).foldl
        (fun h c => listOrAt h (c.2 * width + c.1) 1) hits ∧
    (∀ S : Int, 1 ≤ S → ∀ f1 f2 : Nat, L.toNat ≤ f1 → L.toNat ≤ f2 →
      drawLineForward hits width S beg1 beg2 L f1 =
        drawLineForward hits width S beg1 beg2 L f2) := by
  have hcells := drawLineForwardCells_one beg1 beg2 fuel beg1 beg2 L hL hfuel
  have hinj : Function.Injective
      (fun t : Nat => (beg1 + (t : Int), beg2 + (t : Int))) := by
    intro a b h
    have h1 := congrArg Prod.fst h
    simp only at h1
    omega
  refine ⟨hcells, ?_, ?_, drawLineForward_eq_foldl width 1 fuel hits beg1 beg2 L, ?_⟩
  · rw [hcells]
    simp
  · rw [hcells]
    exact (List.nodup_range L.toNat).map hinj
  · intro S hS f1 f2 hf1 hf2
    have main : ∀ (n : Nat) (h : List Nat) (b1 b2 M : Int) (g1 g2 : Nat),
        0 < M → M.toNat ≤ n → M.toNat ≤ g1 → M.toNat ≤ g2 →
        drawLineForward h width S b1 b2 M g1 =
          drawLineForward h width S b1 b2 M g2 := by
      intro n
      induction n with
      | zero =>
        intro h b1 b2 M g1 g2 hM hn _ _
        omega
      | succ n ih =>
        intro h b1 b2 M g1 g2 hM hn hg1 hg2
        cases g1 with
        | zero => omega
        | succ g1 =>
          cases g2 with
          | zero => omega
          | succ g2 =>
            rw [drawLineForward_succ, drawLineForward_succ]
            have hS0 : (0 : Int) < S := by linarith
            have hr1a : 0 ≤ b1.fmod S := by
              rw [Int.fmod_eq_emod _ hS0.le]
              exact Int.emod_nonneg b1 hS0.ne'
            have hr1b : b1.fmod S < S := by
              rw [Int.fmod_eq_emod _ hS0.le]
              exact Int.emod_lt_of_pos b1 hS0
            have hr2a : 0 ≤ b2.fmod S := by
              rw [Int.fmod_eq_emod _ hS0.le]
              exact Int.emod_nonneg b2 hS0.ne'
            have hr2b : b2.fmod S < S := by
              rw [Int.fmod_eq_emod _ hS0.le]
              exact Int.emod_lt_of_pos b2 hS0
            have hnp : 1 ≤ min (S - b1.fmod S) (S - b2.fmod S) := by
              apply le_min <;> omega
            by_cases hc : M ≤ min (S - b1.fmod S) (S - b2.fmod S)
            · rw [if_pos hc, if_pos hc]
            · rw [if_neg hc, if_neg hc]
              apply ih
              · omega
              · omega
              · omega
              · omega
    exact main fuel hits beg1 beg2 L f1 f2 (by linarith) (by omega) hf1 hf2

theorem drawLineForward_unit_scale_witness :
    drawLineForwardCells 1 0 0 2 2 =
      (List.range (Int.toNat 2)).map
        (fun (t : Nat) => ((0 : Int) + (t : Int), (0 : Int) + (t : Int))) ∧
    (drawLineForwardCells 1 0 0 2 2).length = Int.toNat 2 ∧
    (drawLineForwardCells 1 0 0 2 2).Nodup ∧
    drawLineForward [0, 0, 0, 0] 2 1 0 0 2 2 =
      (drawLineForwardCells 1 0 0 2 2).foldl
        (fun h c => listOrAt h (c.2 * 2 + c.1) 1) [0, 0, 0, 0] ∧
    (∀ S : Int, 1 ≤ S → ∀ f1 f2 : Nat, Int.toNat 2 ≤ f1 → Int.toNat 2 ≤ f2 →
      drawLineForward [0, 0, 0, 0] 2 S 0 0 2 f1 =
        drawLineForward [0, 0, 0, 0] 2 S 0 0 2 f2) :=
  drawLineForward_unit_scale [0, 0, 0, 0] 2 0 0 2 2 (by decide) (by decide)

theorem coveredPos_cons (p : Int) (x : Int × Int) (l : List (Int × Int)) :
    coveredPos p (x :: l) ↔ (x.1 ≤ p ∧ p < x.2) ∨ coveredPos p l := by
  simp [coveredPos]

theorem mem_listCover (p : Int) :
    ∀ L : List (Int × Int), p ∈ listCover L ↔ coveredPos p L := by
  intro L
  induction L with
  | nil => simp [listCover, coveredPos]
  | cons a t ih =>
    simp only [listCover, List.foldr_cons, Finset.mem_union, Finset.mem_Ico,
      coveredPos_cons]
    rw [← ih]
    simp [listCover]

theorem mergeLoop_nil (oldBeg maxEnd : Int) :
    mergeLoop oldBeg maxEnd [] = [(oldBeg, maxEnd)] := rfl

theorem mergeLoop_cons (oldBeg maxEnd beg e : Int) (rest : List (Int × Int)) :
    mergeLoop oldBeg maxEnd ((beg, e) :: rest) =
      if maxEnd < beg then (oldBeg, maxEnd) :: mergeLoop beg e rest
      else if maxEnd < e then mergeLoop oldBeg e rest
      else mergeLoop oldBeg maxEnd rest := rfl

theorem mergeLoop_cover :
    ∀ (rest : List (Int × Int)) (oldBeg maxEnd : Int),
      (∀ r ∈ rest, oldBeg ≤ r.1) →
      List.Pairwise (fun a b => a.1 ≤ b.1) rest →
      ∀ p : Int, coveredPos p (mergeLoop oldBeg maxEnd rest) ↔
        ((oldBeg ≤ p ∧ p < maxEnd) ∨ coveredPos p rest) := by
  intro rest
  induction rest with
  | nil =>
    intro oldBeg maxEnd _ _ p
    rw [mergeLoop_nil]
    simp [coveredPos]
  | cons a t ih =>
    intro oldBeg maxEnd hge hpw p
    obtain ⟨beg, e⟩ := a
    have hbeg : oldBeg ≤ beg := hge (beg, e) (by simp)
    have htge : ∀ r ∈ t, beg ≤ r.1 := by
      intro r hr
      exact (List.pairwise_cons.mp hpw).1 r hr
    have htge' : ∀ r ∈ t, oldBeg ≤ r.1 := fun r hr =>
      le_trans hbeg (htge r hr)
    have htpw : List.Pairwise (fun a b => a.1 ≤ b.1) t :=
      (List.pairwise_cons.mp hpw).2
    rw [mergeLoop_cons]
    by_cases h1 : maxEnd < beg
    · rw [if_pos h1, coveredPos_cons, coveredPos_cons,
        ih beg e htge htpw p]
    · rw [if_neg h1]
      by_cases h2 : maxEnd < e
      · rw [if_pos h2, ih oldBeg e htge' htpw p, coveredPos_cons]
        constructor
        · rintro (⟨hp1, hp2⟩ | hc)
          · by_cases hpm : p < maxEnd
            · exact Or.inl ⟨hp1, hpm⟩
            · push_neg at hpm
              exact Or.inr (Or.inl ⟨by omega, hp2⟩)
          · exact Or.inr (Or.inr hc)
        · rintro (⟨hp1, hp2⟩ | ⟨hp1, hp2⟩ | hc)
          · exact Or.inl ⟨hp1, by omega⟩
          · exact Or.inl ⟨by omega, hp2⟩
          · exact Or.inr hc
      · rw [if_neg h2, ih oldBeg maxEnd htge' htpw p, coveredPos_cons]
        constructor
        · rintro (⟨hp1, hp2⟩ | hc)
          · exact Or.inl ⟨hp1, hp2⟩
          · exact Or.inr (Or.inr hc)
        · rintro (⟨hp1, hp2⟩ | ⟨hp1, hp2⟩ | hc)
          · exact Or.inl ⟨hp1, hp2⟩
          · exact Or.inl ⟨by omega, by omega⟩
          · exact Or.inr hc

theorem mergeLoop_props :
    ∀ (rest : List (Int × Int)) (oldBeg maxEnd : Int),
      (∀ r ∈ rest, oldBeg ≤ r.1) →
      List.Pairwise (fun a b => a.1 ≤ b.1) rest →
      (∀ r ∈ rest, r.1 < r.2) →
      oldBeg < maxEnd →
      (∀ r ∈ mergeLoop oldBeg maxEnd rest, r.1 < r.2) ∧
      List.Chain' (fun a b => a.2 < b.1) (mergeLoop oldBeg maxEnd rest) ∧
      (∃ m : Int, (mergeLoop oldBeg maxEnd rest).head? = some (oldBeg, m)) := by
  intro rest
  induction rest with
  | nil =>
    intro oldBeg maxEnd _ _ _ hlt
    rw [mergeLoop_nil]
    refine ⟨?_, ?_, maxEnd, rfl⟩
    · intro r hr
      simp at hr
      subst hr
      exact hlt
    · simp
  | cons a t ih =>
    intro oldBeg maxEnd hge hpw hwf hlt
    obtain ⟨beg, e⟩ := a
    have hbe : beg < e := hwf (beg, e) (by simp)
    have htge : ∀ r ∈ t, beg ≤ r.1 := by
      intro r hr
      exact (List.pairwise_cons.mp hpw).1 r hr
    have htge' : ∀ r ∈ t, oldBeg ≤ r.1 := fun r hr =>
      le_trans (hge (beg, e) (by simp)) (htge r hr)
    have htpw : List.Pairwise (fun a b => a.1 ≤ b.1) t :=
      (List.pairwise_cons.mp hpw).2
    have htwf : ∀ r ∈ t, r.1 < r.2 := fun r hr => hwf r (by simp [hr])
    rw [mergeLoop_cons]
    by_cases h1 : maxEnd < beg
    · rw [if_pos h1]
      obtain ⟨hwf2, hch2, m, hm⟩ := ih beg e htge htpw htwf hbe
      refine ⟨?_, ?_, maxEnd, rfl⟩
      · intro r hr
        rcases List.mem_cons.mp hr with h | h
        · subst h; exact hlt
        · exact hwf2 r h
      · rw [List.chain'_cons']
        refine ⟨?_, hch2⟩
        intro y hy
        rw [hm] at hy
        simp at hy
        subst hy
        exact h1
    · rw [if_neg h1]
      by_cases h2 : maxEnd < e
      · rw [if_pos h2]
        exact ih oldBeg e htge' htpw htwf (by omega)
      · rw [if_neg h2]
        exact ih oldBeg maxEnd htge' htpw htwf hlt

theorem mergeLoop_fixed :
    ∀ (rest : List (Int × Int)) (oldBeg maxEnd : Int),
      List.Chain' (fun a b => a.2 < b.1) ((oldBeg, maxEnd) :: rest) →
      mergeLoop oldBeg maxEnd rest = (oldBeg, maxEnd) :: rest := by
  intro rest
  induction rest with
  | nil => intro oldBeg maxEnd _; rfl
  | cons a t ih =>
    intro oldBeg maxEnd hch
    obtain ⟨beg, e⟩ := a
    have h1 : maxEnd < beg := (List.chain'_cons.mp hch).1
    rw [mergeLoop_cons, if_pos h1]
    congr 1
    exact ih beg e (List.chain'_cons.mp hch).2

theorem pairLe_trans : ∀ (a b c : Int × Int), pairLe a b = true →
    pairLe b c = true → pairLe a c = true := by
  intro a b c hab hbc
  simp only [pairLe, decide_eq_true_eq] at *
  omega

theorem pairLe_total : ∀ (a b : Int × Int),
    (pairLe a b || pairLe b a) = true := by
  intro a b
  simp only [pairLe, Bool.or_eq_true, decide_eq_true_eq]
  omega

theorem rangeSort_pairwise (R : List (Int × Int)) :
    List.Pairwise (fun a b => a.1 ≤ b.1) (rangeSort R) := by
  have h := List.sorted_mergeSort pairLe_trans pairLe_total R
  refine h.imp ?_
  intro a b hab
  simp only [pairLe, decide_eq_true_eq] at hab
  omega

theorem mem_rangeSort {r : Int × Int} {R : List (Int × Int)} :
    r ∈ rangeSort R ↔ r ∈ R := List.mem_mergeSort

theorem chain_sep_strong :
    ∀ (l : List (Int × Int)) (x : Int × Int),
      List.Chain' (fun a b => a.2 < b.1) (x :: l) →
      (∀ r ∈ l, r.1 < r.2) → ∀ y ∈ l, x.2 < y.1 := by
  intro l
  induction l with
  | nil =>
    intro x _ _ y hy
    simp at hy
  | cons a t ih =>
    intro x hch hwf y hy
    have h1 : x.2 < a.1 := (List.chain'_cons.mp hch).1
    rcases List.mem_cons.mp hy with h | h
    · subst h; exact h1
    · have ha : a.1 < a.2 := hwf a (by simp)
      have h2 := ih a (List.chain'_cons.mp hch).2
        (fun r hr => hwf r (by simp [hr])) y h
      omega

theorem chain_sep_pairwise :
    ∀ (l : List (Int × Int)),
      List.Chain' (fun a b => a.2 < b.1) l → (∀ r ∈ l, r.1 < r.2) →
      List.Pairwise (fun a b => a.2 < b.1) l := by
  intro l
  induction l with
  | nil => intro _ _; exact List.Pairwise.nil
  | cons x t ih =>
    intro hch hwf
    rw [List.pairwise_cons]
    refine ⟨chain_sep_strong t x hch (fun r hr => hwf r (by simp [hr])), ?_⟩
    exact ih hch.tail (fun r hr => hwf r (by simp [hr]))

theorem listCover_cons (a : Int × Int) (t : List (Int × Int)) :
    listCover (a :: t) = Finset.Ico a.1 a.2 ∪ listCover t := rfl

theorem listCover_card_le :
    ∀ (L : List (Int × Int)), (∀ r ∈ L, r.1 < r.2) →
      ((listCover L).card : Int) ≤ (L.map (fun r => r.2 - r.1)).sum := by
  intro L
  induction L with
  | nil =>
    intro _
    simp [listCover]
  | cons a t ih =>
    intro hwf
    rw [listCover_cons, List.map_cons, List.sum_cons]
    have h1 := Finset.card_union_le (Finset.Ico a.1 a.2) (listCover t)
    have h2 := ih (fun r hr => hwf r (by simp [hr]))
    have h3 : ((Finset.Ico a.1 a.2).card : Int) = a.2 - a.1 := by
      rw [Int.card_Ico, Int.toNat_of_nonneg (by have := hwf a (by simp); omega)]
    have h4 : (((Finset.Ico a.1 a.2) ∪ listCover t).card : Int) ≤
        ((Finset.Ico a.1 a.2).card : Int) + ((listCover t).card : Int) := by
      exact_mod_cast h1
    linarith

theorem listCover_card_eq :
    ∀ (L : List (Int × Int)),
      List.Chain' (fun a b => a.2 < b.1) L → (∀ r ∈ L, r.1 < r.2) →
      ((listCover L).card : Int) = (L.map (fun r => r.2 - r.1)).sum := by
  intro L
  induction L with
  | nil =>
    intro _ _
    simp [listCover]
  | cons a t ih =>
    intro hch hwf
    rw [listCover_cons, List.map_cons, List.sum_cons]
    have hdisj : Disjoint (Finset.Ico a.1 a.2) (listCover t) := by
      rw [Finset.disjoint_left]
      intro p hp hpt
      rw [Finset.mem_Ico] at hp
      rw [mem_listCover] at hpt
      obtain ⟨r, hr, hr1, hr2⟩ := hpt
      have := chain_sep_strong t a hch (fun r hr => hwf r (by simp [hr])) r hr
      omega
    rw [Finset.card_union_of_disjoint hdisj]
    have h3 : ((Finset.Ico a.1 a.2).card : Int) = a.2 - a.1 := by
      rw [Int.card_Ico, Int.toNat_of_nonneg (by have := hwf a (by simp); omega)]
    push_cast
    rw [ih hch.tail (fun r hr => hwf r (by simp [hr]))]
    linarith

theorem mergedRangesPerSeqOne_def (v : List (Int × Int)) :
    mergedRangesPerSeqOne v = mergedRanges (rangeSort v) := rfl

theorem mergedRanges_def (l : List (Int × Int)) :
    mergedRanges l = mergeLoop l.headI.1 l.headI.2 l := rfl

/-- C7: merging (sorting then `mergedRanges`) a non-empty list of proper
intervals yields a sorted list of pairwise separated proper intervals
covering exactly the union of the input (overlapping or adjacent inputs
coalesce); the operation is idempotent; and the total merged length is at
most the sum of the input lengths. -/
theorem mergedRanges_correct (R : List (Int × Int)) (hne : R ≠ [])
    (hwf : ∀ r ∈ R, r.1 < r.2) :
    (∀ r ∈ mergedRangesPerSeqOne R, r.1 < r.2) ∧
    List.Chain' (fun a b => a.2 < b.1) (mergedRangesPerSeqOne R) ∧
    (∀ p : Int, coveredPos p (mergedRangesPerSeqOne R) ↔ coveredPos p R) ∧
    mergedRangesPerSeqOne (mergedRangesPerSeqOne R) = mergedRangesPerSeqOne R ∧
    ((mergedRangesPerSeqOne R).map (fun r => r.2 - r.1)).sum ≤
      (R.map (fun r => r.2 - r.1)).sum := by
  have hLne : rangeSort R ≠ [] := by
    intro h
    apply hne
    have hlen : (rangeSort R).length = R.length :=
      (List.mergeSort_perm R pairLe).length_eq
    rw [h] at hlen
    exact List.length_eq_zero.mp hlen.symm
  obtain ⟨h0, t0, hL⟩ : ∃ a t, rangeSort R = a :: t := by
    cases hLx : rangeSort R with
    | nil => exact absurd hLx hLne
    | cons a t => exact ⟨a, t, rfl⟩
  have hmem : ∀ r ∈ rangeSort R, r ∈ R := fun r hr => mem_rangeSort.mp hr
  have hLwf : ∀ r ∈ rangeSort R, r.1 < r.2 := fun r hr => hwf r (hmem r hr)
  have hpw := rangeSort_pairwise R
  have hh0 : h0 ∈ rangeSort R := by rw [hL]; simp
  have hh0wf : h0.1 < h0.2 := hLwf h0 hh0
  have hlow : ∀ r ∈ rangeSort R, h0.1 ≤ r.1 := by
    intro r hr
    have hpw2 := hpw
    rw [hL] at hr hpw2
    rcases List.mem_cons.mp hr with h | h
    · rw [h]
    · exact (List.pairwise_cons.mp hpw2).1 r h
  have hm : mergedRangesPerSeqOne R = mergeLoop h0.1 h0.2 (rangeSort R) := by
    rw [mergedRangesPerSeqOne_def, mergedRanges_def, hL]
    rfl
  obtain ⟨hwfM, hchM, m, hheadM⟩ :=
    mergeLoop_props (rangeSort R) h0.1 h0.2 hlow hpw hLwf hh0wf
  rw [← hm] at hwfM hchM hheadM
  have hcov : ∀ p, coveredPos p (mergedRangesPerSeqOne R) ↔ coveredPos p R := by
    intro p
    rw [hm, mergeLoop_cover (rangeSort R) h0.1 h0.2 hlow hpw p]
    constructor
    · rintro (⟨hp1, hp2⟩ | hc)
      · exact ⟨h0, hmem h0 hh0, hp1, hp2⟩
      · obtain ⟨r, hr, h1, h2⟩ := hc
        exact ⟨r, hmem r hr, h1, h2⟩
    · rintro ⟨r, hr, h1, h2⟩
      right
      exact ⟨r, mem_rangeSort.mpr hr, h1, h2⟩
  refine ⟨hwfM, hchM, hcov, ?_, ?_⟩
  · have hMne : mergedRangesPerSeqOne R ≠ [] := by
      intro h
      rw [h] at hheadM
      simp at hheadM
    have hMpair : List.Pairwise (fun a b => pairLe a b = true)
        (mergedRangesPerSeqOne R) := by
      have hps := chain_sep_pairwise _ hchM hwfM
      refine hps.imp_of_mem ?_
      intro a b ha hb hab
      simp only [pairLe, decide_eq_true_eq]
      have := hwfM a ha
      omega
    have hsortfix : rangeSort (mergedRangesPerSeqOne R) =
        mergedRangesPerSeqOne R := List.mergeSort_of_sorted hMpair
    obtain ⟨m0, mt, hM⟩ : ∃ a t, mergedRangesPerSeqOne R = a :: t := by
      cases hMx : mergedRangesPerSeqOne R with
      | nil => exact absurd hMx hMne
      | cons a t => exact ⟨a, t, rfl⟩
    obtain ⟨mb, me⟩ := m0
    have hm0wf : mb < me := by
      have := hwfM (mb, me) (by rw [hM]; simp)
      simpa using this
    have hch2 : List.Chain' (fun a b => a.2 < b.1) ((mb, me) :: mt) := by
      rw [← hM]
      exact hchM
    rw [mergedRangesPerSeqOne_def (mergedRangesPerSeqOne R), hsortfix, hM,
      mergedRanges_def]
    have hstep : mergeLoop mb me ((mb, me) :: mt) = mergeLoop mb me mt := by
      rw [mergeLoop_cons, if_neg (by omega), if_neg (by omega)]
    calc mergeLoop ((mb, me) :: mt).headI.1 ((mb, me) :: mt).headI.2
          ((mb, me) :: mt)
        = mergeLoop mb me ((mb, me) :: mt) := rfl
      _ = mergeLoop mb me mt := hstep
      _ = (mb, me) :: mt := mergeLoop_fixed mt mb me hch2
  · have hScov : listCover (mergedRangesPerSeqOne R) = listCover R := by
      apply Finset.ext_iff.mpr
      intro p
      rw [mem_listCover, mem_listCover]
      exact hcov p
    have h1 := listCover_card_eq _ hchM hwfM
    have h2 := listCover_card_le R hwf
    rw [hScov] at h1
    linarith

theorem mergedRanges_correct_witness :
    (∀ r ∈ mergedRangesPerSeqOne [((0 : Int), (2 : Int)), (1, 3)],
      r.1 < r.2) ∧
    List.Chain' (fun a b => a.2 < b.1)
      (mergedRangesPerSeqOne [((0 : Int), (2 : Int)), (1, 3)]) ∧
    (∀ p : Int,
      coveredPos p (mergedRangesPerSeqOne [((0 : Int), (2 : Int)), (1, 3)]) ↔
      coveredPos p [((0 : Int), (2 : Int)), (1, 3)]) ∧
    mergedRangesPerSeqOne
        (mergedRangesPerSeqOne [((0 : Int), (2 : Int)), (1, 3)]) =
      mergedRangesPerSeqOne [((0 : Int), (2 : Int)), (1, 3)] ∧
    ((mergedRangesPerSeqOne [((0 : Int), (2 : Int)), (1, 3)]).map
      (fun r => r.2 - r.1)).sum ≤
      (([((0 : Int), (2 : Int)), (1, 3)]).map (fun r => r.2 - r.1)).sum :=
  mergedRanges_correct [(0, 2), (1, 3)] (by decide) (by decide)

theorem midLoop_nil (mg : ℚ) (mp rb : Int) (x : Int × Int) :
    midLoop mg mp rb x [] = ([], rb) := rfl

theorem midLoop_cons (mg : ℚ) (mp rb : Int) (x y : Int × Int)
    (rest : List (Int × Int)) :
    midLoop mg mp rb x (y :: rest) =
      if mg < ((y.1 - x.2 : Int) : ℚ) then
        ((rb, x.2 + mp) :: (midLoop mg mp (y.1 - mp) y rest).1,
          (midLoop mg mp (y.1 - mp) y rest).2)
      else midLoop mg mp rb y rest := rfl

theorem midLoop_first (mg : ℚ) (mp : Int) :
    ∀ (bs : List (Int × Int)) (x : Int × Int) (rb : Int),
      ((midLoop mg mp rb x bs).1 = [] ∧ (midLoop mg mp rb x bs).2 = rb) ∨
      (∃ t ys, (midLoop mg mp rb x bs).1 = (rb, t) :: ys) := by
  intro bs
  induction bs with
  | nil =>
    intro x rb
    left
    exact ⟨rfl, rfl⟩
  | cons y rest ih =>
    intro x rb
    rw [midLoop_cons]
    by_cases h : mg < ((y.1 - x.2 : Int) : ℚ)
    · rw [if_pos h]
      right
      exact ⟨x.2 + mp, _, rfl⟩
    · rw [if_neg h]
      exact ih y rb

/-- C8: when the coverage list has at least one interval overlapping the
range, `trimmed` moves the range begin only when the unaligned left flank
exceeds `max(endGapFrac*minAlignedBases, endPad)` and then sets it to
exactly the first covered position minus `endPad`; symmetrically, the end
moves only when the right flank exceeds the threshold and then becomes
the last covered position plus `endPad`. -/
theorem trimmed_endpoints (coverList : List (Int × Int)) (name : String)
    (rangeBeg rangeEnd minAlignedBases : Int)
    (maxEndGapFrac maxMidGapFrac : ℚ) (endPad midPad : Int)
    (hne : coverList.filter
      (fun i => decide (i.1 < rangeEnd ∧ rangeBeg < i.2)) ≠ []) :
    (∃ e1, (trimmed [(name, rangeBeg, rangeEnd)] [(name, coverList)]
        minAlignedBases maxEndGapFrac maxMidGapFrac endPad midPad).head? =
      some (name,
        (if max (maxEndGapFrac * minAlignedBases) ((endPad : ℚ) * 1) <
            (((coverList.filter
              (fun i => decide (i.1 < rangeEnd ∧ rangeBeg < i.2))).headI.1
              - rangeBeg : Int) : ℚ)
          then (coverList.filter
            (fun i => decide (i.1 < rangeEnd ∧ rangeBeg < i.2))).headI.1
            - endPad
          else rangeBeg), e1)) ∧
    (∃ b2, (trimmed [(name, rangeBeg, rangeEnd)] [(name, coverList)]
        minAlignedBases maxEndGapFrac maxMidGapFrac endPad midPad).getLast? =
      some (name, b2,
        (if max (maxEndGapFrac * minAlignedBases) ((endPad : ℚ) * 1) <
            ((rangeEnd - (coverList.filter
              (fun i => decide (i.1 < rangeEnd ∧ rangeBeg < i.2))).getLastI.2
              : Int) : ℚ)
          then (coverList.filter
            (fun i => decide (i.1 < rangeEnd ∧ rangeBeg < i.2))).getLastI.2
            + endPad
          else rangeEnd))) := by
  obtain ⟨b0, rest, hblocks⟩ : ∃ b t,
      coverList.filter
        (fun i => decide (i.1 < rangeEnd ∧ rangeBeg < i.2)) = b :: t := by
    cases hx : coverList.filter
        (fun i => decide (i.1 < rangeEnd ∧ rangeBeg < i.2)) with
    | nil => exact absurd hx hne
    | cons a t => exact ⟨a, t, rfl⟩
  have hlookup : List.lookup name [(name, coverList)] = some coverList := by
    simp [List.lookup]
  have hout : trimmed [(name, rangeBeg, rangeEnd)] [(name, coverList)]
      minAlignedBases maxEndGapFrac maxMidGapFrac endPad midPad =
      trimmedOne (max (maxEndGapFrac * minAlignedBases) ((endPad : ℚ) * 1))
        (max (maxMidGapFrac * minAlignedBases) ((midPad : ℚ) * 2))
        endPad midPad coverList name rangeBeg rangeEnd := by
    simp [trimmed, hlookup]
  have key : trimmedOne
      (max (maxEndGapFrac * minAlignedBases) ((endPad : ℚ) * 1))
      (max (maxMidGapFrac * minAlignedBases) ((midPad : ℚ) * 2))
      endPad midPad coverList name rangeBeg rangeEnd =
      ((midLoop (max (maxMidGapFrac * minAlignedBases) ((midPad : ℚ) * 2))
          midPad
          (if max (maxEndGapFrac * minAlignedBases) ((endPad : ℚ) * 1) <
              ((b0.1 - rangeBeg : Int) : ℚ) then b0.1 - endPad else rangeBeg)
          b0 rest).1.map (fun p => (name, p.1, p.2))) ++
        [(name,
          (midLoop (max (maxMidGapFrac * minAlignedBases) ((midPad : ℚ) * 2))
            midPad
            (if max (maxEndGapFrac * minAlignedBases) ((endPad : ℚ) * 1) <
                ((b0.1 - rangeBeg : Int) : ℚ) then b0.1 - endPad
              else rangeBeg)
            b0 rest).2,
          if max (maxEndGapFrac * minAlignedBases) ((endPad : ℚ) * 1) <
              ((rangeEnd - (b0 :: rest).getLastI.2 : Int) : ℚ)
            then (b0 :: rest).getLastI.2 + endPad else rangeEnd)] := by
    unfold trimmedOne
    rw [hblocks]
  rw [hout, key, hblocks]
  simp only [List.headI]
  constructor
  · rcases midLoop_first
        (max (maxMidGapFrac * minAlignedBases) ((midPad : ℚ) * 2)) midPad rest
        b0
        (if max (maxEndGapFrac * minAlignedBases) ((endPad : ℚ) * 1) <
            ((b0.1 - rangeBeg : Int) : ℚ) then b0.1 - endPad else rangeBeg)
      with ⟨hm1, hm2⟩ | ⟨t, ys, hm1⟩
    · rw [hm1, hm2]
      simp only [List.map_nil, List.nil_append, List.head?_cons]
      exact ⟨_, rfl⟩
    · rw [hm1]
      simp only [List.map_cons, List.cons_append, List.head?_cons]
      exact ⟨t, rfl⟩
  · exact ⟨_, List.getLast?_concat _⟩

theorem trimmed_endpoints_witness :
    (∃ e1, (trimmed [("s", 0, 10)] [("s", [(2, 8)])] 6 1 4 1 1).head? =
      some ("s",
        (if max ((1 : ℚ) * ((6 : Int) : ℚ)) (((1 : Int) : ℚ) * 1) <
            ((((([((2 : Int), (8 : Int))] : List (Int × Int)).filter
              (fun i => decide (i.1 < (10 : Int) ∧ (0 : Int) < i.2))).headI.1
              - 0 : Int) : ℚ))
          then (([((2 : Int), (8 : Int))] : List (Int × Int)).filter
            (fun i => decide (i.1 < (10 : Int) ∧ (0 : Int) < i.2))).headI.1 - 1
          else 0), e1)) ∧
    (∃ b2, (trimmed [("s", 0, 10)] [("s", [(2, 8)])] 6 1 4 1 1).getLast? =
      some ("s", b2,
        (if max ((1 : ℚ) * ((6 : Int) : ℚ)) (((1 : Int) : ℚ) * 1) <
            ((((10 : Int) - (([((2 : Int), (8 : Int))] : List (Int × Int)).filter
              (fun i => decide (i.1 < (10 : Int) ∧ (0 : Int) < i.2))).getLastI.2
              : Int) : ℚ))
          then (([((2 : Int), (8 : Int))] : List (Int × Int)).filter
            (fun i => decide (i.1 < (10 : Int) ∧ (0 : Int) < i.2))).getLastI.2 + 1
          else 10))) :=
  trimmed_endpoints [(2, 8)] "s" 0 10 6 1 4 1 1 (by decide)

theorem listOrAt_length (hits : List Nat) (i : Int) (v : Nat) :
    (listOrAt hits i v).length = hits.length := by
  simp only [listOrAt]
  split <;> split <;> simp [List.length_set]

theorem listOrAt_eq_wrap (hits : List Nat) (i : Int) (v : Nat) :
    listOrAt hits i v =
      match wrapIdx hits.length i with
      | some j => hits.set j (hits.getD j 0 ||| v)
      | none => hits := by
  simp only [listOrAt, wrapIdx]
  split <;> split <;> rfl

theorem wrapIdx_lt {n : Nat} {i : Int} {j : Nat} (h : wrapIdx n i = some j) :
    j < n := by
  simp only [wrapIdx] at h
  by_cases hc : i < 0
  · rw [if_pos hc] at h
    split at h
    · next hcond =>
      obtain rfl := (Option.some.injEq _ _).mp h.symm
      omega
    · exact absurd h (by simp)
  · rw [if_neg hc] at h
    split at h
    · next hcond =>
      obtain rfl := (Option.some.injEq _ _).mp h.symm
      omega
    · exact absurd h (by simp)

theorem listOrAt_getD_hit {hits : List Nat} {i : Int} {j : Nat} (v : Nat)
    (h : wrapIdx hits.length i = some j) :
    (listOrAt hits i v).getD j 0 = hits.getD j 0 ||| v := by
  rw [listOrAt_eq_wrap, h]
  have hj : j < hits.length := wrapIdx_lt h
  rw [List.getD_eq_getElem?_getD, List.getElem?_set_self hj]
  rfl

theorem listOrAt_getD_miss {hits : List Nat} {i : Int} {j : Nat} (v : Nat)
    (h : wrapIdx hits.length i ≠ some j) :
    (listOrAt hits i v).getD j 0 = hits.getD j 0 := by
  rw [listOrAt_eq_wrap]
  cases hw : wrapIdx hits.length i with
  | none => rfl
  | some k =>
    have hk : k ≠ j := fun e => h (by rw [hw, e])
    rw [List.getD_eq_getElem?_getD, List.getElem?_set_ne hk,
      ← List.getD_eq_getElem?_getD]

theorem foldl_orAt_length (ws : List (Int × Nat)) :
    ∀ hits : List Nat,
      (ws.foldl (fun h w => listOrAt h w.1 w.2) hits).length = hits.length := by
  induction ws with
  | nil => intro hits; rfl
  | cons w t ih =>
    intro hits
    rw [List.foldl_cons, ih, listOrAt_length]

theorem hitWrite_cons (w : Int × Nat) (ws : List (Int × Nat)) (n j b : Nat) :
    hitWrite (w :: ws) n j b ↔
      (w.2 = b ∧ wrapIdx n w.1 = some j) ∨ hitWrite ws n j b := by
  unfold hitWrite
  constructor
  · rintro ⟨w', hw', h1, h2⟩
    rcases List.mem_cons.mp hw' with he | he
    · subst he
      exact Or.inl ⟨h1, h2⟩
    · exact Or.inr ⟨w', he, h1, h2⟩
  · rintro (⟨h1, h2⟩ | ⟨w', hw', h1, h2⟩)
    · exact ⟨w, by simp, h1, h2⟩
    · exact ⟨w', by simp [hw'], h1, h2⟩

theorem foldl_orAt_getD (ws : List (Int × Nat)) :
    ∀ (hits : List Nat) (j : Nat), j < hits.length →
      (∀ w ∈ ws, w.2 = 1 ∨ w.2 = 2) →
      (ws.foldl (fun h w => listOrAt h w.1 w.2) hits).getD j 0 =
        hits.getD j 0 |||
          ((if hitWrite ws hits.length j 1 then 1 else 0) |||
           (if hitWrite ws hits.length j 2 then 2 else 0)) := by
  induction ws with
  | nil =>
    intro hits j hj _
    simp [hitWrite, Nat.or_zero]
  | cons w t ih =>
    intro hits j hj hb
    rw [List.foldl_cons]
    have hlen : (listOrAt hits w.1 w.2).length = hits.length :=
      listOrAt_length _ _ _
    rw [ih (listOrAt hits w.1 w.2) j (by rwa [hlen])
      (fun x hx => hb x (by simp [hx])), hlen]
    by_cases hhit : wrapIdx hits.length w.1 = some j
    · rw [listOrAt_getD_hit _ hhit]
      rcases hb w (by simp) with h1 | h2
      · have hA : hitWrite (w :: t) hits.length j 1 := ⟨w, by simp, h1, hhit⟩
        have hB : hitWrite (w :: t) hits.length j 2 ↔
            hitWrite t hits.length j 2 := by
          rw [hitWrite_cons]
          constructor
          · rintro (⟨hw2, _⟩ | h)
            · rw [h1] at hw2
              cases hw2
            · exact h
          · exact Or.inr
        rw [if_pos hA, h1]
        simp only [hB]
        by_cases hr1 : hitWrite t hits.length j 1 <;>
          by_cases hr2 : hitWrite t hits.length j 2 <;>
          simp only [if_pos, if_neg, hr1, hr2, if_true, if_false] <;>
          · rw [Nat.lor_assoc]
            congr 1
      · have hA : hitWrite (w :: t) hits.length j 2 := ⟨w, by simp, h2, hhit⟩
        have hB : hitWrite (w :: t) hits.length j 1 ↔
            hitWrite t hits.length j 1 := by
          rw [hitWrite_cons]
          constructor
          · rintro (⟨hw2, _⟩ | h)
            · rw [h2] at hw2
              cases hw2
            · exact h
          · exact Or.inr
        rw [if_pos hA, h2]
        simp only [hB]
        by_cases hr1 : hitWrite t hits.length j 1 <;>
          by_cases hr2 : hitWrite t hits.length j 2 <;>
          simp only [if_pos, if_neg, hr1, hr2, if_true, if_false] <;>
          · rw [Nat.lor_assoc]
            congr 1
    · have hB1 : hitWrite (w :: t) hits.length j 1 ↔
          hitWrite t hits.length j 1 := by
        rw [hitWrite_cons]
        constructor
        · rintro (⟨_, hw⟩ | h)
          · exact absurd hw hhit
          · exact h
        · exact Or.inr
      have hB2 : hitWrite (w :: t) hits.length j 2 ↔
          hitWrite t hits.length j 2 := by
        rw [hitWrite_cons]
        constructor
        · rintro (⟨_, hw⟩ | h)
          · exact absurd hw hhit
          · exact h
        · exact Or.inr
      rw [listOrAt_getD_miss _ hhit]
      simp only [hB1, hB2]

theorem drawBlocks_eq_foldl (width : Nat) (bp : Int) (r1 r2 : Bool)
    (o1 o2 : Int) :
    ∀ (blocks : List Block) (hits : List Nat),
      drawBlocks width bp r1 r2 o1 o2 blocks hits =
        (blockWrites width bp r1 r2 o1 o2 blocks).foldl
          (fun h w => listOrAt h w.1 w.2) hits := by
  intro blocks
  induction blocks with
  | nil => intro hits; rfl
  | cons b t ih =>
    intro hits
    have hstep : drawBlocks width bp r1 r2 o1 o2 (b :: t) hits =
        drawBlocks width bp r1 r2 o1 o2 t
          (if r1 = r2 then
            drawLineForward hits width bp
              (o1 + (if r1 then -(b.1 + b.2.2) else b.1))
              (o2 + (if r1 then -(b.2.1 + b.2.2) else b.2.1)) b.2.2
              (b.2.2.toNat + 1)
          else
            drawLineReverse hits width bp
              (o1 + (if r1 then -(b.1 + b.2.2) else b.1))
              (o2 - (if r1 then -(b.2.1 + b.2.2) else b.2.1) - 1) b.2.2
              (b.2.2.toNat + 1)) := rfl
    have hws : blockWrites width bp r1 r2 o1 o2 (b :: t) =
        ((if r1 = r2 then
          (drawLineForwardCells bp
            (o1 + (if r1 then -(b.1 + b.2.2) else b.1))
            (o2 + (if r1 then -(b.2.1 + b.2.2) else b.2.1)) b.2.2
            (b.2.2.toNat + 1)).map (fun c => (c.2 * width + c.1, 1))
        else
          (drawLineReverseCells bp
            (o1 + (if r1 then -(b.1 + b.2.2) else b.1))
            (o2 - (if r1 then -(b.2.1 + b.2.2) else b.2.1) - 1) b.2.2
            (b.2.2.toNat + 1)).map (fun c => (c.2 * width + c.1, 2)) :
          List (Int × Nat))
          ++ blockWrites width bp r1 r2 o1 o2 t) := rfl
    rw [hstep, hws, List.foldl_append, ih]
    congr 1
    by_cases hc : r1 = r2
    · rw [if_pos hc, if_pos hc]
      simp only [List.foldl_map]
      rw [drawLineForward_eq_foldl]
    · rw [if_neg hc, if_neg hc]
      simp only [List.foldl_map]
      rw [drawLineReverse_eq_foldl]

theorem alnLoop_eq (width : Nat) (bp : Int)
    (rd1 rd2 : List (String × List RangeInfo)) :
    ∀ (alns : List Aln) (hits : List Nat) (ws : List (Int × Nat)),
      alignmentWrites width bp rd1 rd2 alns = .ok ws →
      alnLoop width bp rd1 rd2 alns hits =
        .ok (ws.foldl (fun h w => listOrAt h w.1 w.2) hits) := by
  intro alns
  induction alns with
  | nil =>
    intro hits ws h
    have hws : ws = [] := ((Except.ok.injEq _ _).mp h).symm
    subst hws
    rfl
  | cons a rest ih =>
    intro hits ws h
    obtain ⟨seq1, seq2, blocks⟩ := a
    cases blocks with
    | nil => simp [alignmentWrites] at h
    | cons b bs =>
      obtain ⟨b1, b2c, szc⟩ := b
      cases hl1 : lookupRanges rd1 seq1 with
      | none => simp [alignmentWrites, hl1] at h
      | some rs1 =>
        cases hl2 : lookupRanges rd2 seq2 with
        | none => simp [alignmentWrites, hl1, hl2] at h
        | some rs2 =>
          cases hs1 : strandAndOrigin rs1 b1 szc with
          | none => simp [alignmentWrites, hl1, hl2, hs1] at h
          | some p1 =>
            obtain ⟨isR1, ori1⟩ := p1
            cases hs2 : strandAndOrigin rs2 b2c szc with
            | none => simp [alignmentWrites, hl1, hl2, hs1, hs2] at h
            | some p2 =>
              obtain ⟨isR2, ori2⟩ := p2
              cases hrec : alignmentWrites width bp rd1 rd2 rest with
              | error e =>
                simp [alignmentWrites, hl1, hl2, hs1, hs2, hrec] at h
              | ok t =>
                have hws : ws = blockWrites width bp isR1 isR2 ori1 ori2
                    ((b1, b2c, szc) :: bs) ++ t := by
                  simp [alignmentWrites, hl1, hl2, hs1, hs2, hrec] at h
                  exact h.symm
                subst hws
                simp only [alnLoop, hl1, hl2, hs1, hs2]
                rw [ih (drawBlocks width bp isR1 isR2 ori1 ori2
                  ((b1, b2c, szc) :: bs) hits) t hrec]
                rw [drawBlocks_eq_foldl, List.foldl_append]

theorem alignmentWrites_bits (width : Nat) (bp : Int)
    (rd1 rd2 : List (String × List RangeInfo)) :
    ∀ (alns : List Aln) (ws : List (Int × Nat)),
      alignmentWrites width bp rd1 rd2 alns = .ok ws →
      ∀ w ∈ ws, w.2 = 1 ∨ w.2 = 2 := by
  intro alns
  induction alns with
  | nil =>
    intro ws h w hw
    have hws : ws = [] := ((Except.ok.injEq _ _).mp h).symm
    subst hws
    simp at hw
  | cons a rest ih =>
    intro ws h w hw
    obtain ⟨seq1, seq2, blocks⟩ := a
    cases blocks with
    | nil => simp [alignmentWrites] at h
    | cons b bs =>
      obtain ⟨b1, b2c, szc⟩ := b
      cases hl1 : lookupRanges rd1 seq1 with
      | none => simp [alignmentWrites, hl1] at h
      | some rs1 =>
        cases hl2 : lookupRanges rd2 seq2 with
        | none => simp [alignmentWrites, hl1, hl2] at h
        | some rs2 =>
          cases hs1 : strandAndOrigin rs1 b1 szc with
          | none => simp [alignmentWrites, hl1, hl2, hs1] at h
          | some p1 =>
            obtain ⟨isR1, ori1⟩ := p1
            cases hs2 : strandAndOrigin rs2 b2c szc with
            | none => simp [alignmentWrites, hl1, hl2, hs1, hs2] at h
            | some p2 =>
              obtain ⟨isR2, ori2⟩ := p2
              cases hrec : alignmentWrites width bp rd1 rd2 rest with
              | error e =>
                simp [alignmentWrites, hl1, hl2, hs1, hs2, hrec] at h
              | ok t =>
                have hws : ws = blockWrites width bp isR1 isR2 ori1 ori2
                    ((b1, b2c, szc) :: bs) ++ t := by
                  simp [alignmentWrites, hl1, hl2, hs1, hs2, hrec] at h
                  exact h.symm
                subst hws
                rcases List.mem_append.mp hw with hm | hm
                · unfold blockWrites at hm
                  obtain ⟨bb, hbbmem, hbb⟩ := List.mem_flatMap.mp hm
                  by_cases hc : isR1 = isR2
                  · simp only [if_pos hc] at hbb
                    obtain ⟨c, hcmem, hc2⟩ := List.mem_map.mp hbb
                    left
                    rw [← hc2]
                  · simp only [if_neg hc] at hbb
                    obtain ⟨c, hcmem, hc2⟩ := List.mem_map.mp hbb
                    right
                    rw [← hc2]
                · exact ih t hrec w hm

/-- C4: every cell of a grid produced by `alignmentPixels` holds a value in
the set 0..3.  With `ws` the write trace of the run, cell `j` holds exactly
(1 if a same-orientation write hits it) + (2 if an opposite-orientation
write hits it): bit 0 is set only by same-orientation drawing, bit 1 only
by opposite-orientation drawing, every cell value is at most 3, and a cell
hit by at least one write of each orientation holds exactly 3. -/
theorem alignmentPixels_char (width height : Nat) (alignments : List Aln)
    (bp : Int) (rd1 rd2 : List (String × List RangeInfo))
    (grid : List Nat) (ws : List (Int × Nat))
    (hg : alignmentPixels width height alignments bp rd1 rd2 = .ok grid)
    (hw : alignmentWrites width bp rd1 rd2 alignments = .ok ws) :
    grid.length = width * height ∧
    (∀ j, j < width * height →
      grid.getD j 0 =
        (if hitWrite ws (width * height) j 1 then 1 else 0) +
        (if hitWrite ws (width * height) j 2 then 2 else 0)) ∧
    (∀ v ∈ grid, v ≤ 3) ∧
    (∀ j, j < width * height →
      hitWrite ws (width * height) j 1 → hitWrite ws (width * height) j 2 →
      grid.getD j 0 = 3) := by
  have hloop := alnLoop_eq width bp rd1 rd2 alignments
    (List.replicate (width * height) 0) ws hw
  have hgrid : grid =
      ws.foldl (fun h w => listOrAt h w.1 w.2)
        (List.replicate (width * height) 0) := by
    have hthis := hg
    unfold alignmentPixels at hthis
    rw [hloop] at hthis
    exact ((Except.ok.injEq _ _).mp hthis).symm
  have hbits := alignmentWrites_bits width bp rd1 rd2 alignments ws hw
  have hlen : grid.length = width * height := by
    rw [hgrid, foldl_orAt_length, List.length_replicate]
  have hcell : ∀ j, j < width * height →
      grid.getD j 0 =
        (if hitWrite ws (width * height) j 1 then 1 else 0) +
        (if hitWrite ws (width * height) j 2 then 2 else 0) := by
    intro j hj
    have hjlen : j < (List.replicate (width * height) (0:Nat)).length := by
      rw [List.length_replicate]; exact hj
    have h0 : (List.replicate (width * height) (0:Nat)).getD j 0 = 0 := by
      rw [List.getD_eq_getElem?_getD, List.getElem?_replicate, if_pos hj]
      rfl
    have hfold := foldl_orAt_getD ws (List.replicate (width * height) 0) j
      hjlen hbits
    rw [List.length_replicate] at hfold
    rw [hgrid, hfold, h0, Nat.zero_or]
    split_ifs <;> rfl
  refine ⟨hlen, hcell, ?_, ?_⟩
  · intro v hv
    obtain ⟨⟨j, hjl⟩, hget⟩ := List.mem_iff_get.mp hv
    have hj : j < width * height := by rw [← hlen]; exact hjl
    have hval : grid.getD j 0 = v := by
      rw [List.getD_eq_getElem?_getD, List.getElem?_eq_getElem hjl]
      simpa [List.get_eq_getElem] using hget
    rw [← hval, hcell j hj]
    split_ifs <;> omega
  · intro j hj h1 h2
    rw [hcell j hj, if_pos h1, if_pos h2]

/-- Witness for C4: one forward-orientation and one cross-orientation
alignment of the same single base land on the same single grid cell, which
then holds exactly 3. -/
theorem alignmentPixels_char_witness :
    alignmentPixels 1 1
      [("a", "b", [((0:Int), (0:Int), (1:Int))]),
       ("a", "b", [((-1:Int), (0:Int), (1:Int))])] 5
      [("a", [((0:Int), (5:Int), false, (0:Int))])]
      [("b", [((0:Int), (5:Int), false, (0:Int))])] = .ok [3] ∧
    (3:Nat) ≤ 3 := by
  have h := alignmentPixels_char 1 1
      [("a", "b", [((0:Int), (0:Int), (1:Int))]),
       ("a", "b", [((-1:Int), (0:Int), (1:Int))])] 5
      [("a", [((0:Int), (5:Int), false, (0:Int))])]
      [("b", [((0:Int), (5:Int), false, (0:Int))])]
      [3] [((0:Int), 1), ((0:Int), 2)] (by rfl) (by rfl)
  exact ⟨by rfl, h.2.2.1 3 (by decide)⟩
